import Mathlib

/-!
# Shader program introspection (`src/Shaders/Shader.cpp`)

A shallow embedding of the `Shader` class: the text scanner
`findAttributesAndUniforms`, the two lookup tables with `addAttribute`,
`addUniform`, `getAttribute`, `getUniform`, `compileShader` and the constructor.

The scanner works on a mutable C buffer through `strtok`, `strlen` and raw
pointer arithmetic, so the buffer is modelled as a list of characters, a pointer
as an index into it, and every read outside the buffer as an explicit fault.
-/

namespace Shaders

/-! ## C strings in a buffer -/

/-- The character that terminates a C string. -/
def NUL : Char := Char.ofNat 0

/-- The text buffer returned by `textFileRead`; a `char *` is an index into it. -/
abbrev Buf := List Char

/-- Executions the C++ standard leaves undefined: a read or write outside the text
buffer and the use of a null pointer. `fuel` is the exhaustion of the iteration
budget given to the two `while` loops; `scanText_fuel` shows that it never occurs. -/
inductive Fault where
  | outOfBounds
  | nullPointer
  | fuel
  deriving DecidableEq, Repr

/-- The libc function `strspn`, run on the memory that starts at the pointer:
length of the leading run of characters taken from `accept`. -/
def strspn (accept : List Char) : List Char → Except Fault Nat
  | [] => .error .outOfBounds
  | c :: cs =>
    if c ≠ NUL ∧ c ∈ accept then
      match strspn accept cs with
      | .ok n => .ok (n + 1)
      | .error e => .error e
    else .ok 0

/-- The libc function `strcspn`: length of the leading run of characters that are
neither the terminator nor in `reject`. -/
def strcspn (reject : List Char) : List Char → Except Fault Nat
  | [] => .error .outOfBounds
  | c :: cs =>
    if c = NUL ∨ c ∈ reject then .ok 0
    else
      match strcspn reject cs with
      | .ok n => .ok (n + 1)
      | .error e => .error e

/-- The libc function `strlen`. -/
def strlen (s : List Char) : Except Fault Nat := strcspn [] s

/-- Conversion of a `char *` to `std::string`: the characters up to the terminator. -/
def cstr : List Char → Except Fault (List Char)
  | [] => .error .outOfBounds
  | c :: cs =>
    if c = NUL then .ok []
    else
      match cstr cs with
      | .ok s => .ok (c :: s)
      | .error e => .error e

/-- The test `!strcmp(p, lit)` for a literal `lit` (given without its terminator). -/
def strcmp : List Char → List Char → Except Fault Bool
  | [], _ => .error .outOfBounds
  | c :: _, [] => .ok (decide (c = NUL))
  | c :: cs, d :: ds => if c = d then strcmp cs ds else .ok false

/-- The libc function `strtok`. `save` is its internal pointer and `s` its first
argument (`none` for `NULL`). Returns the buffer, the new internal pointer and the
token (`none` for `NULL`): leading delimiters are skipped, the token runs up to the
next delimiter, which is overwritten with the terminator. -/
def strtok (mem : Buf) (save : Nat) (s : Option Nat) (delim : List Char) :
    Except Fault (Buf × Nat × Option Nat) :=
  let p := s.getD save
  match strspn delim (mem.drop p) with
  | .error e => .error e
  | .ok a =>
    let b := p + a
    match strcspn delim (mem.drop b) with
    | .error e => .error e
    | .ok n =>
      if n = 0 then .ok (mem, b, none)
      else
        match mem[b + n]? with
        | none => .error .outOfBounds
        | some c =>
          if c = NUL then .ok (mem, b + n, some b)
          else .ok (mem.set (b + n) NUL, b + n + 1, some b)

/-- Conversion of `size_t` to the 32 bit `int` of `int lineEndingLength = strlen(..)`. -/
def toInt32 (n : Nat) : Int :=
  if n % 2 ^ 32 < 2 ^ 31 then ((n % 2 ^ 32 : Nat) : Int) else ((n % 2 ^ 32 : Nat) : Int) - 2 ^ 32

deriving instance DecidableEq for Except

/-! ## The scanner -/

/-- A call made by the scanner on the shader object. -/
inductive Call where
  | addUniform (name : List Char)
  | addAttribute (name : List Char)
  deriving DecidableEq, Repr

/-- Lines 88 to 90: `while((token = strtok(NULL, ";\n")) != NULL) lines.push_back(token);` -/
def readLines : Nat → Buf → Nat → Except Fault (Buf × Nat × List (Option Nat))
  | 0, _, _ => .error .fuel
  | fuel + 1, mem, save =>
    match strtok mem save none [';', '\n'] with
    | .error e => .error e
    | .ok (mem1, save1, none) => .ok (mem1, save1, [])
    | .ok (mem1, save1, some t) =>
      match readLines fuel mem1 save1 with
      | .error e => .error e
      | .ok (mem2, save2, rest) => .ok (mem2, save2, some t :: rest)

/-- Lines 103 to 111: the `for` loop over `lineEnding`, with `n` iterations left
and loop counter `i`. A comma is overwritten with the terminator and the text after
the last delimiter is registered; a space or a tab only moves `lastDelimiter`. -/
def uniformLoop (lineEnding : Nat) : Nat → Nat → Buf → Int → Except Fault (Buf × Int × List Call)
  | 0, _, mem, lastDelimiter => .ok (mem, lastDelimiter, [])
  | n + 1, i, mem, lastDelimiter =>
    match mem[lineEnding + i]? with
    | none => .error .outOfBounds
    | some c =>
      if c = ',' then
        let mem1 := mem.set (lineEnding + i) NUL
        match cstr (mem1.drop (lineEnding + (lastDelimiter + 1).toNat)) with
        | .error e => .error e
        | .ok name =>
          match uniformLoop lineEnding n (i + 1) mem1 (i : Int) with
          | .error e => .error e
          | .ok (mem2, last, calls) => .ok (mem2, last, Call.addUniform name :: calls)
      else if c = ' ' ∨ c = '\t' then
        uniformLoop lineEnding n (i + 1) mem (i : Int)
      else
        uniformLoop lineEnding n (i + 1) mem lastDelimiter

/-- Lines 115 to 117: `while((token = strtok(NULL, " ")) != NULL) lastToken = token;` -/
def layoutLoop : Nat → Buf → Nat → Option Nat → Except Fault (Buf × Nat × Option Nat)
  | 0, _, _, _ => .error .fuel
  | fuel + 1, mem, save, lastToken =>
    match strtok mem save none [' '] with
    | .error e => .error e
    | .ok (mem1, save1, none) => .ok (mem1, save1, lastToken)
    | .ok (mem1, save1, some t) => layoutLoop fuel mem1 save1 (some t)

/-- What the loop over `lines` carries from one line to the next: the buffer,
the internal pointer of `strtok`, and `lastToken`, which is declared outside the
loop (line 80) and never reset. -/
structure Scan where
  mem : Buf
  save : Nat
  lastToken : Option Nat
  deriving DecidableEq, Repr

/-- Lines 94 to 124: the body of `for (char *line : lines)`, returning the calls
made for this line. -/
def scanLine (line : Option Nat) (st : Scan) : Except Fault (Scan × List Call) :=
  match strtok st.mem st.save line [' ', '(', '\n'] with
  | .error e => .error e
  | .ok (mem, save, none) => .ok (⟨mem, save, st.lastToken⟩, [])
  | .ok (mem, save, some token) =>
    match strcmp (mem.drop token) "uniform".toList with
    | .error e => .error e
    | .ok true =>
      match line with
      | none => .error .nullPointer
      | some l =>
        match strlen (mem.drop l) with
        | .error e => .error e
        | .ok len =>
          let lineEnding := l + len + 1
          match strlen (mem.drop lineEnding) with
          | .error e => .error e
          | .ok len2 =>
            let lineEndingLength := toInt32 len2
            match uniformLoop lineEnding lineEndingLength.toNat 0 mem (-1) with
            | .error e => .error e
            | .ok (mem1, lastDelimiter, calls) =>
              match cstr (mem1.drop (lineEnding + (lastDelimiter + 1).toNat)) with
              | .error e => .error e
              | .ok name => .ok (⟨mem1, save, st.lastToken⟩, calls ++ [Call.addUniform name])
    | .ok false =>
      match strcmp (mem.drop token) "layout".toList with
      | .error e => .error e
      | .ok true =>
        match layoutLoop (mem.length + 1) mem save st.lastToken with
        | .error e => .error e
        | .ok (mem1, save1, none) => .ok (⟨mem1, save1, none⟩, [])
        | .ok (mem1, save1, some lastToken) =>
          match cstr (mem1.drop lastToken) with
          | .error e => .error e
          | .ok name => .ok (⟨mem1, save1, some lastToken⟩, [Call.addAttribute name])
      | .ok false => .ok (⟨mem, save, st.lastToken⟩, [])

/-- Lines 93 to 125: the loop over `lines`; one list of calls per line. -/
def scanLines : List (Option Nat) → Scan → Except Fault (Scan × List (List Call))
  | [], st => .ok (st, [])
  | line :: rest, st =>
    match scanLine line st with
    | .error e => .error e
    | .ok (st1, calls) =>
      match scanLines rest st1 with
      | .error e => .error e
      | .ok (st2, more) => .ok (st2, calls :: more)

/-- Modelled from the spec: `GLSL::textFileRead` is not among the sources; it reads
the file fully into memory as text, so the buffer it returns holds the characters of
the file followed by the terminator. -/
def textBuffer (text : List Char) : Buf := text ++ [NUL]

/-- Lines 78 to 125 on the text returned by `textFileRead` (`none` for `NULL`).
Returns the calls made, grouped by the line (segment) during whose iteration they
were made; the calls do not touch the buffer, so they are executed on the object
afterwards. -/
def scanText (fileText : Option (List Char)) : Except Fault (List (List Call)) :=
  match fileText with
  | none => .error .nullPointer
  | some text =>
    let mem : Buf := textBuffer text
    match strtok mem 0 (some 0) [';', '\n'] with
    | .error e => .error e
    | .ok (mem1, save1, token) =>
      match readLines (mem.length + 1) mem1 save1 with
      | .error e => .error e
      | .ok (mem2, save2, rest) =>
        match scanLines (token :: rest) ⟨mem2, save2, none⟩ with
        | .error e => .error e
        | .ok (_, calls) => .ok calls

/-! ## The lookup tables -/

/-- The type `std::map<std::string, GLint>` of `attributes` and `uniforms`. -/
abbrev Table := List (List Char × Int)

/-- The lookup `table.find(key)`: the stored value, `none` for `table.end()`. -/
def mapFind : Table → List Char → Option Int
  | [], _ => none
  | (k, v) :: rest, key => if k = key then some v else mapFind rest key

/-- The assignment `table[key] = value`: overwrites the value of an existing key,
inserts the key otherwise. -/
def mapAssign : Table → List Char → Int → Table
  | [], key, value => [(key, value)]
  | (k, v) :: rest, key, value =>
    if k = key then (k, value) :: rest else (k, v) :: mapAssign rest key value

/-- The round trip `std::string(name.c_str())`: the characters before the first
terminator. -/
def c_str (name : List Char) : List Char := name.takeWhile (fun c => decide (c ≠ NUL))

/-- The three kinds of stage: `GL_VERTEX_SHADER`, `GL_FRAGMENT_SHADER`,
`GL_GEOMETRY_SHADER`. -/
inductive Stage where
  | vertex
  | fragment
  | geometry
  deriving DecidableEq, Repr

/-- The graphics driver, an external collaborator: every query is a fixed function
of its arguments. `linkStatus` is `GL_LINK_STATUS` for the program with the given
vertex, fragment and geometry handles attached (0 for none). The macro
`CHECK_GL_CALL`, which is not among the sources, is taken to run the call it wraps. -/
structure Driver where
  glCreateProgram : Nat
  glCreateShader : Stage → Nat
  compileStatus : Stage → List Char → Bool
  linkStatus : Nat → Nat → Nat → Nat → Bool
  glGetAttribLocation : Nat → List Char → Int
  glGetUniformLocation : Nat → List Char → Int

/-- The members of class `Shader`. -/
structure Shader where
  pid : Nat
  vShaderId : Nat
  fShaderId : Nat
  gShaderId : Nat
  attributes : Table
  uniforms : Table
  deriving DecidableEq, Repr

/-- Lines 139 to 145. -/
def Shader.addAttribute (drv : Driver) (self : Shader) (name : List Char) : Shader :=
  let r := drv.glGetAttribLocation self.pid (c_str name)
  { self with attributes := mapAssign self.attributes name r }

/-- Lines 147 to 153. -/
def Shader.addUniform (drv : Driver) (self : Shader) (name : List Char) : Shader :=
  let r := drv.glGetUniformLocation self.pid (c_str name)
  { self with uniforms := mapAssign self.uniforms name r }

/-- Lines 155 to 162. -/
def Shader.getAttribute (self : Shader) (name : List Char) : Int :=
  match mapFind self.attributes (c_str name) with
  | none => -1
  | some slot => slot

/-- Lines 164 to 171. -/
def Shader.getUniform (self : Shader) (name : List Char) : Int :=
  match mapFind self.uniforms (c_str name) with
  | none => -1
  | some slot => slot

/-- One call of the scanner, executed on the object. -/
def Shader.call (drv : Driver) (self : Shader) : Call → Shader
  | .addUniform name => self.addUniform drv name
  | .addAttribute name => self.addAttribute drv name

/-- A sequence of calls, executed from left to right. -/
def Shader.calls (drv : Driver) (self : Shader) (cs : List Call) : Shader :=
  cs.foldl (Shader.call drv) self

/-! ## Construction -/

/-- What the constructor does to the outside world. A file read carries the stage
on whose behalf it is made. -/
inductive Event where
  | textFileRead (stage : Stage) (path : List Char)
  | glCompileShader (stage : Stage)
  | glAttachShader (stage : Stage)
  | glLinkProgram
  | findAttributesAndUniforms (stage : Stage)
  deriving DecidableEq, Repr

/-- The stage an event belongs to; linking belongs to none. -/
def Event.stage : Event → Option Stage
  | .textFileRead s _ => some s
  | .glCompileShader s => some s
  | .glAttachShader s => some s
  | .glLinkProgram => none
  | .findAttributesAndUniforms s => some s

/-- How a piece of the constructor ends: `exit(EXIT_FAILURE)`, undefined
behaviour, or normally with a value. -/
inductive Outcome (α : Type) where
  | exit
  | fault (f : Fault)
  | done (a : α)
  deriving DecidableEq, Repr

/-- A piece of the constructor: the events it produced and how it ended. -/
structure Run (α : Type) where
  trace : List Event
  outcome : Outcome α
  deriving DecidableEq, Repr

/-- Sequencing: the continuation runs only after a normal end. -/
def Run.andThen {α β : Type} (r : Run α) (k : α → Run β) : Run β :=
  match r.outcome with
  | .exit => ⟨r.trace, .exit⟩
  | .fault f => ⟨r.trace, .fault f⟩
  | .done a => ⟨r.trace ++ (k a).trace, (k a).outcome⟩

/-- Lines 50 to 75. `fs` is `GLSL::textFileRead` (`none` for `NULL`). -/
def compileShader (drv : Driver) (fs : List Char → Option (List Char)) (shaderType : Stage)
    (res shaderName : List Char) : Run Nat :=
  match fs (res ++ shaderName) with
  | none => ⟨[.textFileRead shaderType (res ++ shaderName)], .done 0⟩
  | some shaderString =>
    let shader := drv.glCreateShader shaderType
    if drv.compileStatus shaderType shaderString then
      ⟨[.textFileRead shaderType (res ++ shaderName), .glCompileShader shaderType], .done shader⟩
    else
      ⟨[.textFileRead shaderType (res ++ shaderName), .glCompileShader shaderType], .exit⟩

/-- Lines 77 to 129: the file is read afresh, scanned, and every call found is
executed on the object. `stage` only labels the events. -/
def Shader.findAttributesAndUniforms (drv : Driver) (fs : List Char → Option (List Char))
    (stage : Stage) (res shaderName : List Char) (self : Shader) : Run Shader :=
  ⟨[.findAttributesAndUniforms stage, .textFileRead stage (res ++ shaderName)],
    match scanText (fs (res ++ shaderName)) with
    | .error e => .fault e
    | .ok calls => .done (self.calls drv calls.flatten)⟩

/-- The handle member of a stage. -/
def Shader.shaderId (self : Shader) : Stage → Nat
  | .vertex => self.vShaderId
  | .fragment => self.fShaderId
  | .geometry => self.gShaderId

/-- Assignment to the handle member of a stage. -/
def Shader.setShaderId (self : Shader) (stage : Stage) (id : Nat) : Shader :=
  match stage with
  | .vertex => { self with vShaderId := id }
  | .fragment => { self with fShaderId := id }
  | .geometry => { self with gShaderId := id }

/-- Lines 12 to 14, 15 to 17, 18 to 20:
`if (name.size() && (id = compileShader(type, res, name))) glAttachShader(pid, id);` -/
def Shader.compileAndAttach (drv : Driver) (fs : List Char → Option (List Char)) (stage : Stage)
    (res name : List Char) (self : Shader) : Run Shader :=
  if name.length ≠ 0 then
    (compileShader drv fs stage res name).andThen fun id =>
      if id ≠ 0 then ⟨[.glAttachShader stage], .done (self.setShaderId stage id)⟩
      else ⟨[], .done (self.setShaderId stage id)⟩
  else ⟨[], .done self⟩

/-- Lines 21 to 37: link, and leave the process when the link failed. -/
def Shader.link (drv : Driver) (self : Shader) : Run Shader :=
  if drv.linkStatus self.pid self.vShaderId self.fShaderId self.gShaderId then
    ⟨[.glLinkProgram], .done self⟩
  else ⟨[.glLinkProgram], .exit⟩

/-- Lines 39 to 41, 42 to 44, 45 to 47:
`if (id) findAttributesAndUniforms(res, name);` -/
def Shader.introspect (drv : Driver) (fs : List Char → Option (List Char)) (stage : Stage)
    (res name : List Char) (self : Shader) : Run Shader :=
  if self.shaderId stage ≠ 0 then self.findAttributesAndUniforms drv fs stage res name
  else ⟨[], .done self⟩

/-- Modelled from the spec: the initial value of the three stage handles is set in
`Shader.hpp`, which is not among the sources; a stage that was never created has
the handle 0, the value `compileShader` returns for "no stage created". -/
def noShader : Nat := 0

set_option linter.dupNamespace false in
/-- Lines 10 to 48: the constructor. -/
def Shader.Shader (drv : Driver) (fs : List Char → Option (List Char))
    (res vName fName gName : List Char) : Run Shaders.Shader :=
  let self : Shaders.Shader := ⟨drv.glCreateProgram, noShader, noShader, noShader, [], []⟩
  (self.compileAndAttach drv fs .vertex res vName).andThen fun self =>
  (self.compileAndAttach drv fs .fragment res fName).andThen fun self =>
  (self.compileAndAttach drv fs .geometry res gName).andThen fun self =>
  (self.link drv).andThen fun self =>
  (self.introspect drv fs .vertex res vName).andThen fun self =>
  (self.introspect drv fs .fragment res fName).andThen fun self =>
  self.introspect drv fs .geometry res gName



/-! ## Vocabulary of the statements about construction -/

/-- The file name the constructor was given for a stage. -/
def stageName (vName fName gName : List Char) : Stage → List Char
  | .vertex => vName
  | .fragment => fName
  | .geometry => gName

/-- A stage fails to compile: it has a name, its source file can be read, and the
driver reports `GL_COMPILE_STATUS` false for that source. -/
def compileFails (drv : Driver) (fs : List Char → Option (List Char)) (res : List Char)
    (stage : Stage) (name : List Char) : Prop :=
  name ≠ [] ∧ ∃ src, fs (res ++ name) = some src ∧ drv.compileStatus stage src = false

/-- The handle a stage has at link time when no stage failed to compile: the
driver's handle for a named stage with a readable file, 0 otherwise. -/
def handleAtLink (drv : Driver) (fs : List Char → Option (List Char)) (res : List Char)
    (stage : Stage) (name : List Char) : Nat :=
  if name = [] then 0
  else
    match fs (res ++ name) with
    | none => 0
    | some _ => drv.glCreateShader stage

/-- The link fails: the driver reports `GL_LINK_STATUS` false for the program with
the handles of the named, readable stages attached. -/
def linkFails (drv : Driver) (fs : List Char → Option (List Char))
    (res vName fName gName : List Char) : Prop :=
  drv.linkStatus drv.glCreateProgram (handleAtLink drv fs res .vertex vName)
    (handleAtLink drv fs res .fragment fName) (handleAtLink drv fs res .geometry gName) = false

/-- Every event of the run satisfies `P`, and a normal end satisfies `I`. -/
def Run.Sat {α : Type} (P : Event → Prop) (I : α → Prop) (r : Run α) : Prop :=
  (∀ e ∈ r.trace, P e) ∧ (∀ a, r.outcome = .done a → I a)



/-! ## What the scanner computes, as functions of the text -/

/-- The maximal runs of characters of a text that are not in `delims`, from left to
right. `cur` is the run read so far. -/
def runsFrom (delims : List Char) : List Char → List Char → List (List Char)
  | cur, [] => if cur = [] then [] else [cur]
  | cur, c :: cs =>
    if c ∈ delims then
      if cur = [] then runsFrom delims [] cs else cur :: runsFrom delims [] cs
    else runsFrom delims (cur ++ [c]) cs

/-- The segments of a source text: its maximal runs of characters other than `;`
and newline. -/
def segments (text : List Char) : List (List Char) := runsFrom [';', '\n'] [] text

/-- The names a declaration text yields, read from left to right: `cur` is the text
since the last space, tab or comma; a comma closes a name, a space or a tab starts
the name afresh, and the end of the text closes the last name. -/
def declNames : List Char → List Char → List (List Char)
  | cur, [] => [cur]
  | cur, c :: cs =>
    if c = ',' then cur :: declNames [] cs
    else if c = ' ' ∨ c = '\t' then declNames [] cs
    else declNames (cur ++ [c]) cs

/-- The comma separated pieces of a text, from left to right. -/
def commaPieces : List Char → List (List Char)
  | [] => [[]]
  | c :: cs =>
    if c = ',' then [] :: commaPieces cs
    else
      match commaPieces cs with
      | [] => [[c]]
      | p :: ps => (c :: p) :: ps

/-- The text after the last space or tab of a piece; the piece itself when it has
neither. -/
def afterLastBlank : List Char → List Char
  | [] => []
  | c :: p =>
    if p.any (fun x => decide (x = ' ' ∨ x = '\t')) then afterLastBlank p
    else if c = ' ' ∨ c = '\t' then p
    else c :: p

/-- The last space delimited token of a text, or `prev` when the text has none. -/
def lastWordOr (prev : Option (List Char)) (R : List Char) : Option (List Char) :=
  match (runsFrom [' '] [] R).getLast? with
  | some name => some name
  | none => prev

/-- The segment is the bare keyword `uniform`: after its leading delimiters (the
delimiters of the first token; a newline cannot occur in a segment) nothing but the
keyword is left. -/
def bareUniform (S : List Char) : Prop :=
  S.dropWhile (fun c => decide (c ∈ [' ', '(', '\n'])) = "uniform".toList

instance (S : List Char) : Decidable (bareUniform S) := by
  unfold bareUniform
  infer_instance

/-- The calls for one segment, and the text `lastToken` points at afterwards, given
the text `prev` it pointed at before (`none` for the null pointer). The first token
is the run after the leading spaces and `(`; `rest` is the text after that token and
the delimiter that ends it. A `uniform` segment registers the names of `rest`; a
`layout` segment registers the last space delimited token of `rest` and, when `rest`
has none, the text `lastToken` still points at; any other segment registers nothing. -/
def segmentCalls (prev : Option (List Char)) (S : List Char) :
    List Call × Option (List Char) :=
  let body := S.dropWhile (fun c => decide (c ∈ [' ', '(', '\n']))
  let token := body.takeWhile (fun c => decide (c ∉ [' ', '(', '\n']))
  let rest := (body.dropWhile (fun c => decide (c ∉ [' ', '(', '\n']))).drop 1
  if token = "uniform".toList then ((declNames [] rest).map Call.addUniform, prev)
  else if token = "layout".toList then
    match lastWordOr prev rest with
    | some name => ([Call.addAttribute name], some name)
    | none => ([], none)
  else ([], prev)

/-- The calls for the segments of a text, one list per segment. -/
def textCalls : Option (List Char) → List (List Char) → List (List Call)
  | _, [] => []
  | prev, S :: rest => (segmentCalls prev S).1 :: textCalls (segmentCalls prev S).2 rest

/-- The text `lastToken` points at after the segments of a text. -/
def textLast : Option (List Char) → List (List Char) → Option (List Char)
  | prev, [] => prev
  | prev, S :: rest => textLast (segmentCalls prev S).2 rest

/-- The pointer `lastToken` and the text it points at: both null, or the pointer
points, inside the part `M` of the buffer, at that text followed by a terminator. -/
def lastTokenIs (M : List Char) (lastToken : Option Nat) (prev : Option (List Char)) : Prop :=
  match lastToken, prev with
  | none, none => True
  | some p, some w => ∃ A B, M = A ++ w ++ NUL :: B ∧ p = A.length ∧ NUL ∉ w
  | _, _ => False

/-- A segment together with the run of `;` and newlines that follows it: the
first of them, `sep`, and the others, `more`. -/
structure Piece where
  seg : List Char
  sep : Char
  more : List Char
  deriving DecidableEq, Repr

/-- The piece as it stands in the source text. -/
def Piece.text (p : Piece) : List Char := p.seg ++ p.sep :: p.more

/-- The piece as it stands in the buffer once the text is cut into lines: the
first delimiter after the segment is overwritten with the terminator. -/
def Piece.cut (p : Piece) : List Char := p.seg ++ NUL :: p.more

/-- A piece is well formed: a non-empty segment without terminator, `;` or newline,
followed by `;` and newlines only. -/
def Piece.ok (p : Piece) : Prop :=
  p.seg ≠ [] ∧ (∀ c ∈ p.seg, c ≠ NUL ∧ c ∉ [';', '\n']) ∧ p.sep ∈ [';', '\n'] ∧
    ∀ c ∈ p.more, c ∈ [';', '\n']

/-- The text of a list of pieces. -/
def textOf : List Piece → List Char
  | [] => []
  | p :: ps => p.text ++ textOf ps

/-- The buffer contents of a list of pieces once the text is cut into lines. -/
def cutOf : List Piece → List Char
  | [] => []
  | p :: ps => p.cut ++ cutOf ps

/-- The pointers to the segments of a list of pieces that starts at `o`. -/
def offsets : Nat → List Piece → List (Option Nat)
  | _, [] => []
  | o, p :: ps => some o :: offsets (o + p.text.length) ps

/-- One declarator of a `uniform` declaration: the spaces and tabs before the
name, the name, and the spaces and tabs after it. -/
structure Declarator where
  before : List Char
  name : List Char
  after : List Char
  deriving DecidableEq, Repr

/-- The declarator as it stands in the source text. -/
def Declarator.text (d : Declarator) : List Char := d.before ++ d.name ++ d.after

/-- A declarator is well formed: spaces and tabs around a name that contains no
space, tab or comma. -/
def Declarator.ok (d : Declarator) : Prop :=
  (∀ c ∈ d.before, c = ' ' ∨ c = '\t') ∧ (∀ c ∈ d.after, c = ' ' ∨ c = '\t') ∧
    ∀ c ∈ d.name, c ≠ ' ' ∧ c ≠ '\t' ∧ c ≠ ','

instance (d : Declarator) : Decidable d.ok := by
  unfold Declarator.ok
  infer_instance

/-- The name the scanner registers for a declarator: the name itself when nothing
follows it, the empty text when spaces or tabs follow it. -/
def Declarator.registered (d : Declarator) : List Char :=
  if d.after = [] then d.name else []

/-- A comma separated list of declarators as it stands in the source text. -/
def renderDecls : List Declarator → List Char
  | [] => []
  | [d] => d.text
  | d :: e :: ds => d.text ++ ',' :: renderDecls (e :: ds)



/-! ## Sample collaborators for the worked instances -/

/-- A driver that creates program 1 and shader 7, compiles and links everything,
and reports -1 for the uniform `a` and for every attribute, 5 for other uniforms. -/
def sampleDriver : Driver where
  glCreateProgram := 1
  glCreateShader := fun _ => 7
  compileStatus := fun _ _ => true
  linkStatus := fun _ _ _ _ => true
  glGetAttribLocation := fun _ _ => -1
  glGetUniformLocation := fun _ n => if n = "a".toList then -1 else 5

/-- A file system with the single file `res/f.glsl`. -/
def sampleFiles : List Char → Option (List Char) :=
  fun path => if path = "res/f.glsl".toList then some "uniform float a, b;".toList else none

/-- A freshly created object: program 1, no stage, empty tables. -/
def sampleShader : Shader := ⟨1, 0, 0, 0, [], []⟩



/-! ## The lookup tables: lemmas -/

theorem mapFind_mapAssign_self (t : Table) (k : List Char) (v : Int) :
    mapFind (mapAssign t k v) k = some v := by
  induction t with
  | nil => simp [mapAssign, mapFind]
  | cons p rest ih =>
    obtain ⟨k1, v1⟩ := p
    by_cases h : k1 = k
    · simp [mapAssign, mapFind, h]
    · simp [mapAssign, mapFind, h, ih]

theorem mapFind_mapAssign_ne (t : Table) (k k2 : List Char) (v : Int) (hne : k ≠ k2) :
    mapFind (mapAssign t k v) k2 = mapFind t k2 := by
  induction t with
  | nil => simp [mapAssign, mapFind, hne]
  | cons p rest ih =>
    obtain ⟨k1, v1⟩ := p
    by_cases h : k1 = k
    · subst h
      simp [mapAssign, mapFind, hne]
    · by_cases h2 : k1 = k2
      · subst h2
        simp [mapAssign, mapFind, h]
      · simp [mapAssign, mapFind, h, h2, ih]

theorem c_str_of_not_mem (n : List Char) (hn : NUL ∉ n) : c_str n = n := by
  unfold c_str
  rw [List.takeWhile_eq_self_iff]
  intro c hc
  have : c ≠ NUL := fun h => hn (h ▸ hc)
  simpa using this

theorem call_pid (drv : Driver) (self : Shader) (c : Call) : (self.call drv c).pid = self.pid := by
  cases c <;> rfl

theorem calls_pid (drv : Driver) (cs : List Call) (self : Shader) :
    (self.calls drv cs).pid = self.pid := by
  induction cs generalizing self with
  | nil => rfl
  | cons c cs ih =>
    have h := ih (self.call drv c)
    simpa [Shader.calls, call_pid] using h

theorem call_shaderId (drv : Driver) (self : Shader) (c : Call) (stage : Stage) :
    (self.call drv c).shaderId stage = self.shaderId stage := by
  cases c <;> cases stage <;> rfl

theorem calls_shaderId (drv : Driver) (cs : List Call) (self : Shader) (stage : Stage) :
    (self.calls drv cs).shaderId stage = self.shaderId stage := by
  induction cs generalizing self with
  | nil => rfl
  | cons c cs ih =>
    have h := ih (self.call drv c)
    simpa [Shader.calls, call_shaderId] using h

/-- A call other than `addUniform n` leaves the entry of `n` in `uniforms` as it is. -/
theorem call_uniforms_other (drv : Driver) (self : Shader) (c : Call) (n : List Char)
    (hc : c ≠ Call.addUniform n) :
    mapFind (self.call drv c).uniforms n = mapFind self.uniforms n := by
  cases c with
  | addUniform m =>
    have hne : m ≠ n := fun h => hc (by rw [h])
    simp [Shader.call, Shader.addUniform, mapFind_mapAssign_ne _ _ _ _ hne]
  | addAttribute m => rfl

/-- A call other than `addAttribute n` leaves the entry of `n` in `attributes` as it is. -/
theorem call_attributes_other (drv : Driver) (self : Shader) (c : Call) (n : List Char)
    (hc : c ≠ Call.addAttribute n) :
    mapFind (self.call drv c).attributes n = mapFind self.attributes n := by
  cases c with
  | addAttribute m =>
    have hne : m ≠ n := fun h => hc (by rw [h])
    simp [Shader.call, Shader.addAttribute, mapFind_mapAssign_ne _ _ _ _ hne]
  | addUniform m => rfl

/-- Once `n` holds the value the driver reports for it, every further sequence of
calls keeps it. -/
theorem calls_uniforms_keep (drv : Driver) (n : List Char) (cs : List Call) (self : Shader)
    (h : mapFind self.uniforms n = some (drv.glGetUniformLocation self.pid (c_str n))) :
    mapFind (self.calls drv cs).uniforms n
      = some (drv.glGetUniformLocation self.pid (c_str n)) := by
  induction cs generalizing self with
  | nil => exact h
  | cons c cs ih =>
    have hp := call_pid drv self c
    have h1 : mapFind (self.call drv c).uniforms n
        = some (drv.glGetUniformLocation (self.call drv c).pid (c_str n)) := by
      rw [hp]
      by_cases hc : c = Call.addUniform n
      · subst hc
        simp [Shader.call, Shader.addUniform, mapFind_mapAssign_self]
      · rw [call_uniforms_other drv self c n hc]; exact h
    have h2 := ih (self.call drv c) h1
    rw [hp] at h2
    simpa [Shader.calls] using h2

theorem calls_attributes_keep (drv : Driver) (n : List Char) (cs : List Call) (self : Shader)
    (h : mapFind self.attributes n = some (drv.glGetAttribLocation self.pid (c_str n))) :
    mapFind (self.calls drv cs).attributes n
      = some (drv.glGetAttribLocation self.pid (c_str n)) := by
  induction cs generalizing self with
  | nil => exact h
  | cons c cs ih =>
    have hp := call_pid drv self c
    have h1 : mapFind (self.call drv c).attributes n
        = some (drv.glGetAttribLocation (self.call drv c).pid (c_str n)) := by
      rw [hp]
      by_cases hc : c = Call.addAttribute n
      · subst hc
        simp [Shader.call, Shader.addAttribute, mapFind_mapAssign_self]
      · rw [call_attributes_other drv self c n hc]; exact h
    have h2 := ih (self.call drv c) h1
    rw [hp] at h2
    simpa [Shader.calls] using h2

/-- A name registered by `addUniform` somewhere in a sequence of calls ends with
the value the driver reports for it. -/
theorem calls_uniforms_registered (drv : Driver) (n : List Char) (cs : List Call) (self : Shader)
    (h : Call.addUniform n ∈ cs) :
    mapFind (self.calls drv cs).uniforms n
      = some (drv.glGetUniformLocation self.pid (c_str n)) := by
  induction cs generalizing self with
  | nil => simp at h
  | cons c cs ih =>
    have hp := call_pid drv self c
    by_cases hc : c = Call.addUniform n
    · have h1 : mapFind (self.call drv c).uniforms n
          = some (drv.glGetUniformLocation (self.call drv c).pid (c_str n)) := by
        subst hc
        simp [Shader.call, Shader.addUniform, mapFind_mapAssign_self]
      have h2 := calls_uniforms_keep drv n cs (self.call drv c) h1
      rw [hp] at h2
      simpa [Shader.calls] using h2
    · have hin : Call.addUniform n ∈ cs := by
        rcases List.mem_cons.mp h with h0 | h0
        · exact absurd h0.symm hc
        · exact h0
      have h2 := ih (self.call drv c) hin
      rw [hp] at h2
      simpa [Shader.calls] using h2

theorem calls_attributes_registered (drv : Driver) (n : List Char) (cs : List Call)
    (self : Shader) (h : Call.addAttribute n ∈ cs) :
    mapFind (self.calls drv cs).attributes n
      = some (drv.glGetAttribLocation self.pid (c_str n)) := by
  induction cs generalizing self with
  | nil => simp at h
  | cons c cs ih =>
    have hp := call_pid drv self c
    by_cases hc : c = Call.addAttribute n
    · have h1 : mapFind (self.call drv c).attributes n
          = some (drv.glGetAttribLocation (self.call drv c).pid (c_str n)) := by
        subst hc
        simp [Shader.call, Shader.addAttribute, mapFind_mapAssign_self]
      have h2 := calls_attributes_keep drv n cs (self.call drv c) h1
      rw [hp] at h2
      simpa [Shader.calls] using h2
    · have hin : Call.addAttribute n ∈ cs := by
        rcases List.mem_cons.mp h with h0 | h0
        · exact absurd h0.symm hc
        · exact h0
      have h2 := ih (self.call drv c) hin
      rw [hp] at h2
      simpa [Shader.calls] using h2

/-- A name that no call of the sequence registers stays as it was. -/
theorem calls_uniforms_absent (drv : Driver) (n : List Char) (cs : List Call) (self : Shader)
    (h : Call.addUniform n ∉ cs) :
    mapFind (self.calls drv cs).uniforms n = mapFind self.uniforms n := by
  induction cs generalizing self with
  | nil => rfl
  | cons c cs ih =>
    have hc : c ≠ Call.addUniform n := fun e => h (by simp [e])
    have hin : Call.addUniform n ∉ cs := fun e => h (List.mem_cons_of_mem _ e)
    have h2 := ih (self.call drv c) hin
    rw [call_uniforms_other drv self c n hc] at h2
    simpa [Shader.calls] using h2

theorem calls_attributes_absent (drv : Driver) (n : List Char) (cs : List Call) (self : Shader)
    (h : Call.addAttribute n ∉ cs) :
    mapFind (self.calls drv cs).attributes n = mapFind self.attributes n := by
  induction cs generalizing self with
  | nil => rfl
  | cons c cs ih =>
    have hc : c ≠ Call.addAttribute n := fun e => h (by simp [e])
    have hin : Call.addAttribute n ∉ cs := fun e => h (List.mem_cons_of_mem _ e)
    have h2 := ih (self.call drv c) hin
    rw [call_attributes_other drv self c n hc] at h2
    simpa [Shader.calls] using h2



/-! ## Construction: lemmas -/

theorem Sat_andThen {α β : Type} {P : Event → Prop} {I : α → Prop} {J : β → Prop}
    {r : Run α} {k : α → Run β} (hr : r.Sat P I) (hk : ∀ a, I a → (k a).Sat P J) :
    (r.andThen k).Sat P J := by
  obtain ⟨tr, o⟩ := r
  cases o with
  | exit => exact ⟨by simpa [Run.andThen] using hr.1, by simp [Run.andThen]⟩
  | fault f => exact ⟨by simpa [Run.andThen] using hr.1, by simp [Run.andThen]⟩
  | done a =>
    have ha := hk a (hr.2 a rfl)
    refine ⟨?_, ?_⟩
    · intro e he
      simp only [Run.andThen, List.mem_append] at he
      rcases he with he | he
      · exact hr.1 e he
      · exact ha.1 e he
    · intro b hb
      exact ha.2 b (by simpa [Run.andThen] using hb)

theorem andThen_outcome_done {α β : Type} {r : Run α} {k : α → Run β} {a : α}
    (h : r.outcome = .done a) : (r.andThen k).outcome = (k a).outcome := by
  simp [Run.andThen, h]

theorem andThen_outcome_exit {α β : Type} {r : Run α} {k : α → Run β}
    (h : r.outcome = .exit) : (r.andThen k).outcome = .exit := by
  simp [Run.andThen, h]

theorem setShaderId_same (self : Shader) (stage : Stage) (id : Nat) :
    (self.setShaderId stage id).shaderId stage = id := by
  cases stage <;> rfl

theorem setShaderId_other (self : Shader) (stage st : Stage) (id : Nat) (h : st ≠ stage) :
    (self.setShaderId stage id).shaderId st = self.shaderId st := by
  cases stage <;> cases st <;> first | rfl | exact absurd rfl h

theorem setShaderId_pid (self : Shader) (stage : Stage) (id : Nat) :
    (self.setShaderId stage id).pid = self.pid := by
  cases stage <;> rfl

theorem setShaderId_self (self : Shader) (stage : Stage) :
    self.setShaderId stage (self.shaderId stage) = self := by
  cases stage <;> rfl

theorem compileShader_unreadable (drv : Driver) (fs : List Char → Option (List Char))
    (stage : Stage) (res name : List Char) (h : fs (res ++ name) = none) :
    compileShader drv fs stage res name = ⟨[.textFileRead stage (res ++ name)], .done 0⟩ := by
  simp [compileShader, h]

/-- What `compileShader` does, by cases. -/
theorem compileShader_cases (drv : Driver) (fs : List Char → Option (List Char))
    (stage : Stage) (res name : List Char) :
    (fs (res ++ name) = none ∧
      compileShader drv fs stage res name = ⟨[.textFileRead stage (res ++ name)], .done 0⟩) ∨
    (∃ src, fs (res ++ name) = some src ∧ drv.compileStatus stage src = true ∧
      compileShader drv fs stage res name
        = ⟨[.textFileRead stage (res ++ name), .glCompileShader stage],
            .done (drv.glCreateShader stage)⟩) ∨
    (∃ src, fs (res ++ name) = some src ∧ drv.compileStatus stage src = false ∧
      compileShader drv fs stage res name
        = ⟨[.textFileRead stage (res ++ name), .glCompileShader stage], .exit⟩) := by
  cases hf : fs (res ++ name) with
  | none => exact Or.inl ⟨rfl, by simp [compileShader, hf]⟩
  | some src =>
    cases hc : drv.compileStatus stage src with
    | true => exact Or.inr (Or.inl ⟨src, rfl, hc, by simp [compileShader, hf, hc]⟩)
    | false => exact Or.inr (Or.inr ⟨src, rfl, hc, by simp [compileShader, hf, hc]⟩)

theorem compileAndAttach_nil (drv : Driver) (fs : List Char → Option (List Char))
    (stage : Stage) (res : List Char) (self : Shader) :
    self.compileAndAttach drv fs stage res [] = ⟨[], .done self⟩ := by
  simp [Shader.compileAndAttach]

/-- The events of a compile step belong to its stage, and a normal end changes only
the handle of that stage. -/
theorem compileAndAttach_sat (drv : Driver) (fs : List Char → Option (List Char))
    (stage : Stage) (res name : List Char) (self : Shader) :
    (self.compileAndAttach drv fs stage res name).Sat
      (fun e => e.stage = some stage ∧ name ≠ [] ∧
        (e = .textFileRead stage (res ++ name) ∨ e = .glCompileShader stage ∨
          (e = .glAttachShader stage ∧ fs (res ++ name) ≠ none)))
      (fun s => s.pid = self.pid ∧ (∀ st, st ≠ stage → s.shaderId st = self.shaderId st) ∧
        (name = [] → s = self) ∧
        (fs (res ++ name) = none → name ≠ [] → s.shaderId stage = 0)) := by
  by_cases hn : name = []
  · subst hn
    rw [compileAndAttach_nil]
    exact ⟨by simp, by intro a ha; cases ha; simp⟩
  · have hlen : name.length ≠ 0 := by simpa using hn
    unfold Shader.compileAndAttach
    rw [if_pos hlen]
    rcases compileShader_cases drv fs stage res name with ⟨hf, h⟩ | ⟨src, hf, _, h⟩ | ⟨src, hf, _, h⟩
    · rw [h]
      refine ⟨?_, ?_⟩
      · intro e he
        simp [Run.andThen] at he
        subst he
        simp [Event.stage, hn]
      · intro a ha
        simp [Run.andThen] at ha
        subst ha
        exact ⟨setShaderId_pid _ _ _, fun st h => setShaderId_other _ _ _ _ h,
          fun h => absurd h hn, fun _ _ => setShaderId_same _ _ _⟩
    · rw [h]
      refine ⟨?_, ?_⟩
      · intro e he
        have he2 : e = .textFileRead stage (res ++ name) ∨ e = .glCompileShader stage ∨
            e = .glAttachShader stage := by
          by_cases hid : drv.glCreateShader stage = 0
          · simp [Run.andThen, hid] at he
            rcases he with he | he
            · exact Or.inl he
            · exact Or.inr (Or.inl he)
          · simp [Run.andThen, hid] at he
            rcases he with he | he | he
            · exact Or.inl he
            · exact Or.inr (Or.inl he)
            · exact Or.inr (Or.inr he)
        rcases he2 with he | he | he <;> subst he <;> simp [Event.stage, hn, hf]
      · intro a ha
        have ha2 : a = self.setShaderId stage (drv.glCreateShader stage) := by
          by_cases hid : drv.glCreateShader stage = 0
          · simp [Run.andThen, hid] at ha
            rw [hid]
            exact ha.symm
          · simp [Run.andThen, hid] at ha
            exact ha.symm
        subst ha2
        exact ⟨setShaderId_pid _ _ _, fun st h => setShaderId_other _ _ _ _ h,
          fun h => absurd h hn, fun h => by simp [hf] at h⟩
    · rw [h]
      refine ⟨?_, ?_⟩
      · intro e he
        simp [Run.andThen] at he
        rcases he with he | he <;> subst he <;> simp [Event.stage, hn]
      · intro a ha
        simp [Run.andThen] at ha

theorem link_sat (drv : Driver) (self : Shader) :
    (self.link drv).Sat (fun e => e = .glLinkProgram) (fun s => s = self) := by
  unfold Shader.link
  by_cases h : drv.linkStatus self.pid self.vShaderId self.fShaderId self.gShaderId = true
  · rw [if_pos h]
    exact ⟨by simp, by intro a ha; cases ha; rfl⟩
  · rw [if_neg h]
    exact ⟨by simp, by intro a ha; cases ha⟩

/-- The events of an introspection step belong to its stage and occur only when the
handle of the stage is set; a normal end leaves every handle as it was. -/
theorem introspect_sat (drv : Driver) (fs : List Char → Option (List Char))
    (stage : Stage) (res name : List Char) (self : Shader) :
    (self.introspect drv fs stage res name).Sat
      (fun e => self.shaderId stage ≠ 0 ∧
        (e = .findAttributesAndUniforms stage ∨ e = .textFileRead stage (res ++ name)))
      (fun s => s.pid = self.pid ∧ ∀ st, s.shaderId st = self.shaderId st) := by
  unfold Shader.introspect
  by_cases h : self.shaderId stage ≠ 0
  · rw [if_pos h]
    unfold Shader.findAttributesAndUniforms
    refine ⟨?_, ?_⟩
    · intro e he
      simp at he
      exact ⟨h, he⟩
    · intro a ha
      cases hs : scanText (fs (res ++ name)) with
      | error e => simp [hs] at ha
      | ok calls =>
        simp [hs] at ha
        subst ha
        exact ⟨calls_pid _ _ _, fun st => calls_shaderId _ _ _ _⟩
  · rw [if_neg h]
    exact ⟨by simp, by intro a ha; cases ha; simp⟩

theorem introspect_outcome_ne_exit (drv : Driver) (fs : List Char → Option (List Char))
    (stage : Stage) (res name : List Char) (self : Shader) :
    (self.introspect drv fs stage res name).outcome ≠ .exit := by
  unfold Shader.introspect
  by_cases h : self.shaderId stage ≠ 0
  · rw [if_pos h]
    unfold Shader.findAttributesAndUniforms
    cases hs : scanText (fs (res ++ name)) <;> simp
  · rw [if_neg h]
    simp

theorem andThen_outcome_ne_exit {α β : Type} {r : Run α} {k : α → Run β}
    (hr : r.outcome ≠ .exit) (hk : ∀ a, (k a).outcome ≠ .exit) :
    (r.andThen k).outcome ≠ .exit := by
  obtain ⟨tr, o⟩ := r
  cases o with
  | exit => exact absurd rfl hr
  | fault f => simp [Run.andThen]
  | done a => simpa [Run.andThen] using hk a

theorem Sat_mono {α : Type} {P Q : Event → Prop} {I J : α → Prop} {r : Run α}
    (h : r.Sat P I) (hP : ∀ e, P e → Q e) (hI : ∀ a, I a → J a) : r.Sat Q J :=
  ⟨fun e he => hP e (h.1 e he), fun a ha => hI a (h.2 a ha)⟩

/-- The outcome of a compile step on an object whose handle for the stage is unset. -/
theorem compileAndAttach_outcome (drv : Driver) (fs : List Char → Option (List Char))
    (stage : Stage) (res name : List Char) (self : Shader) (h0 : self.shaderId stage = 0) :
    (compileFails drv fs res stage name ∧
      (self.compileAndAttach drv fs stage res name).outcome = .exit) ∨
    (¬ compileFails drv fs res stage name ∧
      (self.compileAndAttach drv fs stage res name).outcome
        = .done (self.setShaderId stage (handleAtLink drv fs res stage name))) := by
  by_cases hn : name = []
  · subst hn
    right
    refine ⟨fun h => h.1 rfl, ?_⟩
    rw [compileAndAttach_nil]
    simp only [handleAtLink, if_true]
    rw [← h0, setShaderId_self]
  · have hlen : name.length ≠ 0 := by simpa using hn
    unfold Shader.compileAndAttach
    rw [if_pos hlen]
    rcases compileShader_cases drv fs stage res name with ⟨hf, h⟩ | ⟨src, hf, hc, h⟩ | ⟨src, hf, hc, h⟩
    · right
      refine ⟨?_, ?_⟩
      · rintro ⟨_, src, hs, _⟩
        rw [hf] at hs
        cases hs
      · rw [h]
        simp [Run.andThen, handleAtLink, hn, hf]
    · right
      refine ⟨?_, ?_⟩
      · rintro ⟨_, src2, hs, hc2⟩
        rw [hf] at hs
        cases hs
        rw [hc] at hc2
        cases hc2
      · rw [h]
        by_cases hid : drv.glCreateShader stage = 0 <;>
          simp [Run.andThen, handleAtLink, hn, hf, hid]
    · left
      refine ⟨⟨hn, src, hf, hc⟩, ?_⟩
      rw [h]
      simp [Run.andThen]



/-! ## Construction: the statements -/

/-- The chain of the seven steps of the constructor satisfies `P` and `I` as soon
as each kind of step preserves them. -/
theorem constructor_sat (drv : Driver) (fs : List Char → Option (List Char))
    (res vName fName gName : List Char) (P : Event → Prop) (I : Shader → Prop)
    (h0 : I ⟨drv.glCreateProgram, 0, 0, 0, [], []⟩)
    (hc : ∀ stage self, I self →
      (self.compileAndAttach drv fs stage res (stageName vName fName gName stage)).Sat P I)
    (hl : ∀ self, I self → (self.link drv).Sat P I)
    (hi : ∀ stage self, I self →
      (self.introspect drv fs stage res (stageName vName fName gName stage)).Sat P I) :
    (Shader.Shader drv fs res vName fName gName).Sat P I := by
  unfold Shader.Shader
  refine Sat_andThen (hc .vertex _ h0) fun s1 h1 => ?_
  refine Sat_andThen (hc .fragment _ h1) fun s2 h2 => ?_
  refine Sat_andThen (hc .geometry _ h2) fun s3 h3 => ?_
  refine Sat_andThen (hl _ h3) fun s4 h4 => ?_
  refine Sat_andThen (hi .vertex _ h4) fun s5 h5 => ?_
  refine Sat_andThen (hi .fragment _ h5) fun s6 h6 => ?_
  exact hi .geometry _ h6

/-- No event of the constructor belongs to a stage whose name is empty. -/
theorem constructor_skips_empty (drv : Driver) (fs : List Char → Option (List Char))
    (res vName fName gName : List Char) :
    (Shader.Shader drv fs res vName fName gName).Sat
      (fun e => ∀ stage, stageName vName fName gName stage = [] → e.stage ≠ some stage)
      (fun s => ∀ stage, stageName vName fName gName stage = [] → s.shaderId stage = 0) := by
  apply constructor_sat
  · intro stage _
    cases stage <;> rfl
  · intro stage0 self hI
    refine Sat_mono (compileAndAttach_sat drv fs stage0 res _ self) ?_ ?_
    · rintro e ⟨he, hn, _⟩ stage hs h
      rw [he] at h
      cases h
      exact hn hs
    · rintro s ⟨_, hother, hnil, _⟩ stage hs
      by_cases hst : stage = stage0
      · subst hst
        rw [hnil hs]
        exact hI _ hs
      · rw [hother stage hst]
        exact hI _ hs
  · intro self hI
    refine Sat_mono (link_sat drv self) ?_ ?_
    · rintro e he stage _ h
      rw [he] at h
      cases h
    · rintro s hs
      rw [hs]
      exact hI
  · intro stage0 self hI
    refine Sat_mono (introspect_sat drv fs stage0 res _ self) ?_ ?_
    · rintro e ⟨hid, he⟩ stage hs h
      have : stage = stage0 := by
        rcases he with he | he <;> rw [he] at h <;> cases h <;> rfl
      subst this
      exact hid (hI _ hs)
    · rintro s ⟨_, hs⟩ stage hn
      rw [hs]
      exact hI _ hn

/-- A stage whose file cannot be read is neither attached nor introspected. -/
theorem constructor_skips_unreadable (drv : Driver) (fs : List Char → Option (List Char))
    (res vName fName gName : List Char) (stage : Stage)
    (hf : fs (res ++ stageName vName fName gName stage) = none) :
    (Shader.Shader drv fs res vName fName gName).Sat
      (fun e => e ≠ .glAttachShader stage ∧ e ≠ .findAttributesAndUniforms stage)
      (fun s => s.shaderId stage = 0) := by
  apply constructor_sat
  · cases stage <;> rfl
  · intro stage0 self hI
    refine Sat_mono (compileAndAttach_sat drv fs stage0 res _ self) ?_ ?_
    · rintro e ⟨he, hn, hk⟩
      by_cases hst : stage0 = stage
      · subst hst
        rcases hk with hk | hk | ⟨_, hk⟩
        · subst hk; simp
        · subst hk; simp
        · exact absurd hf hk
      · constructor <;> intro h <;> rw [h] at he <;> cases he <;> exact hst rfl
    · rintro s ⟨_, hother, hnil, hun⟩
      by_cases hst : stage = stage0
      · subst hst
        by_cases hn : stageName vName fName gName stage = []
        · rw [hnil hn]
          exact hI
        · exact hun hf hn
      · rw [hother stage hst]
        exact hI
  · intro self hI
    refine Sat_mono (link_sat drv self) ?_ ?_
    · rintro e he
      subst he
      simp
    · rintro s hs
      rw [hs]
      exact hI
  · intro stage0 self hI
    refine Sat_mono (introspect_sat drv fs stage0 res _ self) ?_ ?_
    · rintro e ⟨hid, he⟩
      by_cases hst : stage0 = stage
      · subst hst
        exact absurd hI hid
      · rcases he with he | he <;> subst he
        · exact ⟨by simp, fun h => hst (by cases h; rfl)⟩
        · exact ⟨by simp, by simp⟩
    · rintro s ⟨_, hs⟩
      rw [hs]
      exact hI

/-- The constructor with a fragment name only: either the run is the full one (read,
compile, attach, link, introspect with its own read), or it is a shorter one and no
fragment handle is left in a constructed object. -/
theorem constructor_fragment_only (drv : Driver) (fs : List Char → Option (List Char))
    (res fName : List Char) :
    (Shader.Shader drv fs res [] fName []).trace
      = [.textFileRead .fragment (res ++ fName), .glCompileShader .fragment,
          .glAttachShader .fragment, .glLinkProgram, .findAttributesAndUniforms .fragment,
          .textFileRead .fragment (res ++ fName)] ∨
    (((Shader.Shader drv fs res [] fName []).trace = [.glLinkProgram] ∨
      (Shader.Shader drv fs res [] fName []).trace
        = [.textFileRead .fragment (res ++ fName), .glLinkProgram] ∨
      (Shader.Shader drv fs res [] fName []).trace
        = [.textFileRead .fragment (res ++ fName), .glCompileShader .fragment] ∨
      (Shader.Shader drv fs res [] fName []).trace
        = [.textFileRead .fragment (res ++ fName), .glCompileShader .fragment, .glLinkProgram] ∨
      (Shader.Shader drv fs res [] fName []).trace
        = [.textFileRead .fragment (res ++ fName), .glCompileShader .fragment,
            .glAttachShader .fragment, .glLinkProgram]) ∧
     ∀ s, (Shader.Shader drv fs res [] fName []).outcome = .done s → s.fShaderId = 0) := by
  by_cases hn : fName = []
  · subst hn
    right
    by_cases hl : drv.linkStatus drv.glCreateProgram 0 0 0 = true
    · refine ⟨Or.inl ?_, ?_⟩
      · simp [Shader.Shader, Shader.compileAndAttach, Run.andThen, Shader.link,
          Shader.introspect, noShader, Shader.shaderId, hl]
      · intro s hs
        simp [Shader.Shader, Shader.compileAndAttach, Run.andThen, Shader.link,
          Shader.introspect, noShader, Shader.shaderId, hl] at hs
        subst hs
        rfl
    · refine ⟨Or.inl ?_, ?_⟩
      · simp [Shader.Shader, Shader.compileAndAttach, Run.andThen, Shader.link,
          Shader.introspect, noShader, Shader.shaderId, hl]
      · intro s hs
        simp [Shader.Shader, Shader.compileAndAttach, Run.andThen, Shader.link,
          Shader.introspect, noShader, Shader.shaderId, hl] at hs
  · rcases compileShader_cases drv fs .fragment res fName with
      ⟨hf, h⟩ | ⟨src, hf, hc, h⟩ | ⟨src, hf, hc, h⟩
    · right
      by_cases hl : drv.linkStatus drv.glCreateProgram 0 0 0 = true
      · refine ⟨Or.inr (Or.inl ?_), ?_⟩
        · simp [Shader.Shader, Shader.compileAndAttach, Run.andThen, Shader.link,
            Shader.introspect, noShader, Shader.shaderId, Shader.setShaderId, hl, hn, h]
        · intro s hs
          simp [Shader.Shader, Shader.compileAndAttach, Run.andThen, Shader.link,
            Shader.introspect, noShader, Shader.shaderId, Shader.setShaderId, hl, hn, h] at hs
          subst hs
          rfl
      · refine ⟨Or.inr (Or.inl ?_), ?_⟩
        · simp [Shader.Shader, Shader.compileAndAttach, Run.andThen, Shader.link,
            Shader.introspect, noShader, Shader.shaderId, Shader.setShaderId, hl, hn, h]
        · intro s hs
          simp [Shader.Shader, Shader.compileAndAttach, Run.andThen, Shader.link,
            Shader.introspect, noShader, Shader.shaderId, Shader.setShaderId, hl, hn, h] at hs
    · by_cases hid : drv.glCreateShader .fragment = 0
      · right
        by_cases hl : drv.linkStatus drv.glCreateProgram 0 0 0 = true
        · refine ⟨Or.inr (Or.inr (Or.inr (Or.inl ?_))), ?_⟩
          · simp [Shader.Shader, Shader.compileAndAttach, Run.andThen, Shader.link,
              Shader.introspect, noShader, Shader.shaderId, Shader.setShaderId, hl, hn, h, hid]
          · intro s hs
            simp [Shader.Shader, Shader.compileAndAttach, Run.andThen, Shader.link,
              Shader.introspect, noShader, Shader.shaderId, Shader.setShaderId, hl, hn, h,
              hid] at hs
            subst hs
            rfl
        · refine ⟨Or.inr (Or.inr (Or.inr (Or.inl ?_))), ?_⟩
          · simp [Shader.Shader, Shader.compileAndAttach, Run.andThen, Shader.link,
              Shader.introspect, noShader, Shader.shaderId, Shader.setShaderId, hl, hn, h, hid]
          · intro s hs
            simp [Shader.Shader, Shader.compileAndAttach, Run.andThen, Shader.link,
              Shader.introspect, noShader, Shader.shaderId, Shader.setShaderId, hl, hn, h,
              hid] at hs
      · by_cases hl : drv.linkStatus drv.glCreateProgram 0 (drv.glCreateShader .fragment) 0 = true
        · left
          cases hs : scanText (fs (res ++ fName)) with
          | error e =>
            simp [Shader.Shader, Shader.compileAndAttach, Run.andThen, Shader.link,
              Shader.introspect, Shader.findAttributesAndUniforms,
              noShader, Shader.shaderId, Shader.setShaderId, hl, hn, h, hid, hs]
          | ok calls =>
            have hg := calls_shaderId drv calls.flatten
              ⟨drv.glCreateProgram, 0, drv.glCreateShader .fragment, 0, [], []⟩ .geometry
            simp only [Shader.shaderId] at hg
            simp [Shader.Shader, Shader.compileAndAttach, Run.andThen, Shader.link,
              Shader.introspect, Shader.findAttributesAndUniforms,
              noShader, Shader.shaderId, Shader.setShaderId, hl, hn, h, hid, hs, hg]
        · right
          refine ⟨Or.inr (Or.inr (Or.inr (Or.inr ?_))), ?_⟩
          · simp [Shader.Shader, Shader.compileAndAttach, Run.andThen, Shader.link,
              Shader.introspect, Shader.findAttributesAndUniforms,
              noShader, Shader.shaderId, Shader.setShaderId, hl, hn, h, hid]
          · intro s hs
            simp [Shader.Shader, Shader.compileAndAttach, Run.andThen, Shader.link,
              Shader.introspect, Shader.findAttributesAndUniforms,
              noShader, Shader.shaderId, Shader.setShaderId, hl, hn, h, hid] at hs
    · right
      refine ⟨Or.inr (Or.inr (Or.inl ?_)), ?_⟩
      · simp [Shader.Shader, Shader.compileAndAttach, Run.andThen, Shader.link,
          Shader.introspect, noShader, Shader.shaderId, Shader.setShaderId, hn, h]
      · intro s hs
        simp [Shader.Shader, Shader.compileAndAttach, Run.andThen, Shader.link,
          Shader.introspect, noShader, Shader.shaderId, Shader.setShaderId, hn, h] at hs

/-- The constructor leaves the process exactly when a stage fails to compile or the
link fails. -/
theorem constructor_exit_iff (drv : Driver) (fs : List Char → Option (List Char))
    (res vName fName gName : List Char) :
    (Shader.Shader drv fs res vName fName gName).outcome = .exit ↔
      (compileFails drv fs res .vertex vName ∨ compileFails drv fs res .fragment fName ∨
        compileFails drv fs res .geometry gName ∨ linkFails drv fs res vName fName gName) := by
  unfold Shader.Shader
  rcases compileAndAttach_outcome drv fs .vertex res vName
      ⟨drv.glCreateProgram, noShader, noShader, noShader, [], []⟩ rfl with ⟨hv, ho⟩ | ⟨hv, ho⟩
  · rw [andThen_outcome_exit ho]
    exact ⟨fun _ => Or.inl hv, fun _ => rfl⟩
  rw [andThen_outcome_done ho]
  rcases compileAndAttach_outcome drv fs .fragment res fName
      (Shader.setShaderId ⟨drv.glCreateProgram, noShader, noShader, noShader, [], []⟩ .vertex
        (handleAtLink drv fs res .vertex vName)) rfl with ⟨hf, ho2⟩ | ⟨hf, ho2⟩
  · rw [andThen_outcome_exit ho2]
    exact ⟨fun _ => Or.inr (Or.inl hf), fun _ => rfl⟩
  rw [andThen_outcome_done ho2]
  rcases compileAndAttach_outcome drv fs .geometry res gName
      (Shader.setShaderId (Shader.setShaderId
        ⟨drv.glCreateProgram, noShader, noShader, noShader, [], []⟩ .vertex
        (handleAtLink drv fs res .vertex vName)) .fragment
        (handleAtLink drv fs res .fragment fName)) rfl with ⟨hg, ho3⟩ | ⟨hg, ho3⟩
  · rw [andThen_outcome_exit ho3]
    exact ⟨fun _ => Or.inr (Or.inr (Or.inl hg)), fun _ => rfl⟩
  rw [andThen_outcome_done ho3]
  by_cases hl : drv.linkStatus drv.glCreateProgram (handleAtLink drv fs res .vertex vName)
      (handleAtLink drv fs res .fragment fName) (handleAtLink drv fs res .geometry gName) = true
  · have hlo : (Shader.link drv (Shader.setShaderId (Shader.setShaderId (Shader.setShaderId
        ⟨drv.glCreateProgram, noShader, noShader, noShader, [], []⟩ .vertex
        (handleAtLink drv fs res .vertex vName)) .fragment
        (handleAtLink drv fs res .fragment fName)) .geometry
        (handleAtLink drv fs res .geometry gName))).outcome = .done
          (Shader.setShaderId (Shader.setShaderId (Shader.setShaderId
        ⟨drv.glCreateProgram, noShader, noShader, noShader, [], []⟩ .vertex
        (handleAtLink drv fs res .vertex vName)) .fragment
        (handleAtLink drv fs res .fragment fName)) .geometry
        (handleAtLink drv fs res .geometry gName)) := by
      simp [Shader.link, Shader.setShaderId, hl]
    rw [andThen_outcome_done hlo]
    constructor
    · intro h
      exact absurd h (andThen_outcome_ne_exit (introspect_outcome_ne_exit _ _ _ _ _ _)
        fun a => andThen_outcome_ne_exit (introspect_outcome_ne_exit _ _ _ _ _ _)
          fun b => introspect_outcome_ne_exit _ _ _ _ _ _)
    · rintro (h | h | h | h)
      · exact absurd h hv
      · exact absurd h hf
      · exact absurd h hg
      · unfold linkFails at h
        rw [hl] at h
        cases h
  · have hlf : linkFails drv fs res vName fName gName := by
      unfold linkFails
      simpa using hl
    have hlo : (Shader.link drv (Shader.setShaderId (Shader.setShaderId (Shader.setShaderId
        ⟨drv.glCreateProgram, noShader, noShader, noShader, [], []⟩ .vertex
        (handleAtLink drv fs res .vertex vName)) .fragment
        (handleAtLink drv fs res .fragment fName)) .geometry
        (handleAtLink drv fs res .geometry gName))).outcome = .exit := by
      simp [Shader.link, Shader.setShaderId, hl]
    rw [andThen_outcome_exit hlo]
    exact ⟨fun _ => Or.inr (Or.inr (Or.inr hlf)), fun _ => rfl⟩



/-! ## C strings in a buffer: lemmas -/

theorem drop_at {A B : List Char} {p : Nat} (h : p = A.length) : (A ++ B).drop p = B := by
  subst h
  exact List.drop_left A B

theorem get_at {A B : List Char} {c : Char} {p : Nat} (h : p = A.length) :
    (A ++ c :: B)[p]? = some c := by
  subst h
  rw [List.getElem?_append_right (le_refl _)]
  simp

theorem set_at {A B : List Char} {c d : Char} {p : Nat} (h : p = A.length) :
    (A ++ c :: B).set p d = A ++ d :: B := by
  subst h
  simp

theorem strspn_run (accept run : List Char) (x : Char) (X : List Char)
    (hrun : ∀ c ∈ run, c ≠ NUL ∧ c ∈ accept) (hx : ¬ (x ≠ NUL ∧ x ∈ accept)) :
    strspn accept (run ++ x :: X) = .ok run.length := by
  induction run with
  | nil =>
    simp only [List.nil_append, strspn, if_neg hx, List.length_nil]
  | cons c cs ih =>
    have hc := hrun c (by simp)
    have h2 := ih (fun d hd => hrun d (by simp [hd]))
    rw [List.cons_append, strspn, if_pos hc, h2, List.length_cons]

theorem strcspn_run (reject run : List Char) (x : Char) (X : List Char)
    (hrun : ∀ c ∈ run, c ≠ NUL ∧ c ∉ reject) (hx : x = NUL ∨ x ∈ reject) :
    strcspn reject (run ++ x :: X) = .ok run.length := by
  induction run with
  | nil =>
    simp only [List.nil_append, strcspn, if_pos hx, List.length_nil]
  | cons c cs ih =>
    have hc := hrun c (by simp)
    have hc2 : ¬ (c = NUL ∨ c ∈ reject) := fun h => h.elim hc.1 hc.2
    have h2 := ih (fun d hd => hrun d (by simp [hd]))
    rw [List.cons_append, strcspn, if_neg hc2, h2, List.length_cons]

theorem strlen_run (run : List Char) (X : List Char) (hrun : NUL ∉ run) :
    strlen (run ++ NUL :: X) = .ok run.length := by
  unfold strlen
  apply strcspn_run
  · intro c hc
    exact ⟨fun h => hrun (h ▸ hc), by simp⟩
  · exact Or.inl rfl

theorem cstr_run (run : List Char) (X : List Char) (hrun : NUL ∉ run) :
    cstr (run ++ NUL :: X) = .ok run := by
  induction run with
  | nil => simp [cstr]
  | cons c cs ih =>
    have hc : c ≠ NUL := fun h => hrun (by simp [h])
    have h2 := ih (fun h => hrun (by simp [h]))
    rw [List.cons_append, cstr, if_neg hc, h2]

theorem strcmp_self (lit : List Char) (X : List Char) :
    strcmp (lit ++ NUL :: X) lit = .ok true := by
  induction lit with
  | nil => simp [strcmp]
  | cons c cs ih => simp [strcmp, ih]

theorem strcmp_ne (tok lit : List Char) (X : List Char) (ht : NUL ∉ tok) (hl : NUL ∉ lit)
    (hne : tok ≠ lit) : strcmp (tok ++ NUL :: X) lit = .ok false := by
  induction tok generalizing lit with
  | nil =>
    cases lit with
    | nil => exact absurd rfl hne
    | cons d ds =>
      have : NUL ≠ d := fun h => hl (by simp [h])
      simp [strcmp, this]
  | cons c cs ih =>
    have hc : c ≠ NUL := fun h => ht (by simp [h])
    cases lit with
    | nil => simp [strcmp, hc]
    | cons d ds =>
      by_cases hcd : c = d
      · subst hcd
        have h2 := ih ds (fun h => ht (by simp [h])) (fun h => hl (by simp [h]))
          (fun h => hne (by rw [h]))
        simp [strcmp, h2]
      · simp [strcmp, hcd]

/-- A call of `strtok` that finds a token: the leading delimiters `blanks` are
skipped, the token `tok` is returned, and the delimiter after it is overwritten. -/
theorem strtok_token (delim P blanks tok : List Char) (x : Char) (X : List Char)
    (save : Nat) (s : Option Nat) (hp : s.getD save = P.length)
    (hb : ∀ c ∈ blanks, c ≠ NUL ∧ c ∈ delim) (ht : ∀ c ∈ tok, c ≠ NUL ∧ c ∉ delim)
    (hne : tok ≠ []) (hx : x = NUL ∨ x ∈ delim) :
    strtok (P ++ blanks ++ tok ++ x :: X) save s delim
      = .ok (P ++ blanks ++ tok ++ NUL :: X,
          P.length + blanks.length + tok.length + (if x = NUL then 0 else 1),
          some (P.length + blanks.length)) := by
  obtain ⟨t, tok1, rfl⟩ := List.exists_cons_of_ne_nil hne
  have ht0 := ht t (by simp)
  have h1 : (P ++ blanks ++ (t :: tok1) ++ x :: X).drop P.length
      = blanks ++ t :: (tok1 ++ x :: X) := by
    have : P ++ blanks ++ (t :: tok1) ++ x :: X = P ++ (blanks ++ t :: (tok1 ++ x :: X)) := by
      simp
    rw [this, List.drop_left]
  have h2 : (P ++ blanks ++ (t :: tok1) ++ x :: X).drop (P.length + blanks.length)
      = (t :: tok1) ++ x :: X := by
    have : P ++ blanks ++ (t :: tok1) ++ x :: X = (P ++ blanks) ++ ((t :: tok1) ++ x :: X) := by
      simp
    rw [this]
    exact drop_at (by simp)
  have h3 : (P ++ blanks ++ (t :: tok1) ++ x :: X)[P.length + blanks.length
      + (t :: tok1).length]? = some x :=
    get_at (by simp only [List.length_append, List.length_cons])
  have hspn := strspn_run delim blanks t (tok1 ++ x :: X) hb (fun h => ht0.2 h.2)
  have hcspn := strcspn_run delim (t :: tok1) x X ht hx
  unfold strtok
  simp only [hp, h1, hspn, h2, hcspn, h3]
  have hlen : (t :: tok1).length ≠ 0 := by simp
  rw [if_neg hlen]
  by_cases hxn : x = NUL
  · subst hxn
    simp
  · have hset : (P ++ blanks ++ (t :: tok1) ++ x :: X).set
        (P.length + blanks.length + (t :: tok1).length) NUL
        = P ++ blanks ++ (t :: tok1) ++ NUL :: X :=
      set_at (by simp only [List.length_append, List.length_cons])
    simp only [if_neg hxn, hset]

/-- A call of `strtok` that finds no token: only delimiters are left before the
terminator. -/
theorem strtok_none (delim P blanks : List Char) (X : List Char)
    (save : Nat) (s : Option Nat) (hp : s.getD save = P.length)
    (hb : ∀ c ∈ blanks, c ≠ NUL ∧ c ∈ delim) :
    strtok (P ++ blanks ++ NUL :: X) save s delim
      = .ok (P ++ blanks ++ NUL :: X, P.length + blanks.length, none) := by
  have h1 : (P ++ blanks ++ NUL :: X).drop P.length = blanks ++ NUL :: X := by
    rw [List.append_assoc, List.drop_left]
  have h2 : (P ++ blanks ++ NUL :: X).drop (P.length + blanks.length) = NUL :: X :=
    drop_at (by simp)
  have hspn := strspn_run delim blanks NUL X hb (fun h => h.1 rfl)
  have hcspn := strcspn_run delim [] NUL X (by simp) (Or.inl rfl)
  unfold strtok
  simp only [hp, h1, hspn, h2]
  simp only [List.nil_append] at hcspn
  simp [hcspn]



/-! ## The loop over a `uniform` declaration -/

/-- The `for` loop of the `uniform` branch on the declaration text `done ++ cur ++ rest`,
entered at the first character of `rest`, with `cur` the text since the last
delimiter: the memory outside the declaration is unchanged, and the calls of the loop
followed by the call after the loop are those of `declNames`. -/
theorem uniformLoop_spec (P X : List Char) (rest : List Char) :
    ∀ (done cur : List Char) (last : Int), last + 1 = (done.length : Int) →
      NUL ∉ cur → NUL ∉ rest →
      ∃ (done1 cur1 : List Char) (last1 : Int) (calls : List Call),
        uniformLoop P.length rest.length (done.length + cur.length)
            (P ++ done ++ cur ++ rest ++ NUL :: X) last
          = .ok (P ++ done1 ++ cur1 ++ NUL :: X, last1, calls) ∧
        last1 + 1 = (done1.length : Int) ∧ NUL ∉ cur1 ∧
        (done1 ++ cur1).length = (done ++ cur ++ rest).length ∧
        calls ++ [Call.addUniform cur1] = (declNames cur rest).map Call.addUniform := by
  induction rest with
  | nil =>
    intro done cur last hlast hcur _
    exact ⟨done, cur, last, [], by simp [uniformLoop], hlast, hcur, by simp,
      by simp [declNames]⟩
  | cons c rest ih =>
    intro done cur last hlast hcur hrest
    have hc : c ≠ NUL := fun h => hrest (by simp [h])
    have hrest1 : NUL ∉ rest := fun h => hrest (by simp [h])
    have hget : (P ++ done ++ cur ++ (c :: rest) ++ NUL :: X)[P.length
        + (done.length + cur.length)]? = some c := by
      have : P ++ done ++ cur ++ (c :: rest) ++ NUL :: X
          = (P ++ done ++ cur) ++ c :: (rest ++ NUL :: X) := by simp
      rw [this]
      exact get_at (by simp only [List.length_append]; omega)
    rw [List.length_cons, uniformLoop]
    simp only [hget]
    by_cases hcomma : c = ','
    · subst hcomma
      have hset : (P ++ done ++ cur ++ (',' :: rest) ++ NUL :: X).set
          (P.length + (done.length + cur.length)) NUL
          = P ++ (done ++ cur ++ [NUL]) ++ [] ++ rest ++ NUL :: X := by
        have : P ++ done ++ cur ++ (',' :: rest) ++ NUL :: X
            = (P ++ done ++ cur) ++ ',' :: (rest ++ NUL :: X) := by simp
        rw [this, set_at (by simp only [List.length_append]; omega)]
        simp
      have hname : cstr ((P ++ (done ++ cur ++ [NUL]) ++ [] ++ rest ++ NUL :: X).drop
          (P.length + (last + 1).toNat)) = .ok cur := by
        have e1 : (last + 1).toNat = done.length := by rw [hlast]; simp
        have : P ++ (done ++ cur ++ [NUL]) ++ [] ++ rest ++ NUL :: X
            = (P ++ done) ++ (cur ++ NUL :: (rest ++ NUL :: X)) := by simp
        rw [this, e1, drop_at (by simp)]
        exact cstr_run cur _ hcur
      obtain ⟨done1, cur1, last1, calls, hrun, h1, h2, h3, h4⟩ :=
        ih (done ++ cur ++ [NUL]) [] ((done.length + cur.length : Nat) : Int)
          (by simp only [List.length_append, List.length_singleton]; push_cast; ring)
          (by simp) hrest1
      have hidx : (done ++ cur ++ [NUL]).length + ([] : List Char).length
          = done.length + cur.length + 1 := by
        simp only [List.length_append, List.length_singleton, List.length_nil]
      rw [hidx] at hrun
      refine ⟨done1, cur1, last1, Call.addUniform cur :: calls, ?_, h1, h2, ?_, ?_⟩
      · simp only [if_true, hset, hname, hrun]
      · simp only [List.length_append, List.length_cons, List.length_singleton,
          List.length_nil] at h3 ⊢
        omega
      · simp only [declNames, if_true, List.map_cons, List.cons_append, h4]
    · by_cases hblank : c = ' ' ∨ c = '\t'
      · have hmem : P ++ done ++ cur ++ (c :: rest) ++ NUL :: X
            = P ++ (done ++ cur ++ [c]) ++ [] ++ rest ++ NUL :: X := by simp
        obtain ⟨done1, cur1, last1, calls, hrun, h1, h2, h3, h4⟩ :=
          ih (done ++ cur ++ [c]) [] ((done.length + cur.length : Nat) : Int)
            (by simp only [List.length_append, List.length_singleton]; push_cast; ring)
            (by simp) hrest1
        have hidx : (done ++ cur ++ [c]).length + ([] : List Char).length
            = done.length + cur.length + 1 := by
          simp only [List.length_append, List.length_singleton, List.length_nil]
        rw [hidx] at hrun
        refine ⟨done1, cur1, last1, calls, ?_, h1, h2, ?_, ?_⟩
        · simp only [if_neg hcomma, if_pos hblank, hmem, hrun]
        · simp only [List.length_append, List.length_cons, List.length_singleton,
            List.length_nil] at h3 ⊢
          omega
        · simp only [declNames, if_neg hcomma, if_pos hblank, h4]
      · have hmem : P ++ done ++ cur ++ (c :: rest) ++ NUL :: X
            = P ++ done ++ (cur ++ [c]) ++ rest ++ NUL :: X := by simp
        have hcur2 : NUL ∉ cur ++ [c] := by
          intro h
          rcases List.mem_append.mp h with h | h
          · exact hcur h
          · exact hc (List.mem_singleton.mp h).symm
        obtain ⟨done1, cur1, last1, calls, hrun, h1, h2, h3, h4⟩ :=
          ih done (cur ++ [c]) last hlast hcur2 hrest1
        have hidx : done.length + (cur ++ [c]).length = done.length + cur.length + 1 := by
          simp only [List.length_append, List.length_singleton]; omega
        rw [hidx] at hrun
        refine ⟨done1, cur1, last1, calls, ?_, h1, h2, ?_, ?_⟩
        · simp only [if_neg hcomma, if_neg hblank, hmem, hrun]
        · simp only [List.length_append, List.length_cons, List.length_singleton,
            List.length_nil] at h3 ⊢
          omega
        · simp only [declNames, if_neg hcomma, if_neg hblank, h4]



/-! ## Runs of a text -/

theorem runsFrom_run (delims run : List Char) (hrun : ∀ c ∈ run, c ∉ delims) :
    ∀ (cur X : List Char), runsFrom delims cur (run ++ X) = runsFrom delims (cur ++ run) X := by
  induction run with
  | nil => intro cur X; simp
  | cons c run ih =>
    intro cur X
    have hc : c ∉ delims := hrun c (by simp)
    rw [List.cons_append, runsFrom, if_neg hc, ih (fun d hd => hrun d (by simp [hd]))]
    simp

theorem runsFrom_delims (delims D : List Char) (hD : ∀ c ∈ D, c ∈ delims) (X : List Char) :
    runsFrom delims [] (D ++ X) = runsFrom delims [] X := by
  induction D with
  | nil => rfl
  | cons c D ih =>
    have hc : c ∈ delims := hD c (by simp)
    rw [List.cons_append, runsFrom, if_pos hc, if_pos rfl,
      ih (fun d hd => hD d (by simp [hd]))]

theorem runsFrom_delim (delims cur : List Char) (hcur : cur ≠ []) (d : Char)
    (hd : d ∈ delims) (X : List Char) :
    runsFrom delims cur (d :: X) = cur :: runsFrom delims [] X := by
  rw [runsFrom, if_pos hd, if_neg hcur]

theorem runsFrom_end (delims run : List Char) (hrun : ∀ c ∈ run, c ∉ delims) :
    runsFrom delims [] run = if run = [] then [] else [run] := by
  have := runsFrom_run delims run hrun [] []
  rw [List.append_nil] at this
  rw [this, runsFrom]
  simp

theorem lastWordOr_blank (prev : Option (List Char)) (spaces : List Char)
    (hsp : ∀ c ∈ spaces, c = ' ') : lastWordOr prev spaces = prev := by
  have h := runsFrom_delims [' '] spaces (fun c hc => by simp [hsp c hc]) []
  rw [List.append_nil] at h
  unfold lastWordOr
  rw [h]
  simp [runsFrom]

theorem lastWordOr_word (prev : Option (List Char)) (spaces tok : List Char)
    (hsp : ∀ c ∈ spaces, c = ' ') (htok : ∀ c ∈ tok, c ∉ [' ']) (hne : tok ≠ []) :
    lastWordOr prev (spaces ++ tok) = some tok := by
  unfold lastWordOr
  rw [runsFrom_delims [' '] spaces (fun c hc => by simp [hsp c hc]),
    runsFrom_end [' '] tok htok, if_neg hne]
  rfl

theorem lastWordOr_more (prev : Option (List Char)) (spaces tok R : List Char)
    (hsp : ∀ c ∈ spaces, c = ' ') (htok : ∀ c ∈ tok, c ∉ [' ']) (hne : tok ≠ []) :
    lastWordOr prev (spaces ++ tok ++ ' ' :: R) = lastWordOr (some tok) R := by
  unfold lastWordOr
  have e : spaces ++ tok ++ ' ' :: R = spaces ++ (tok ++ ' ' :: R) := by simp
  rw [e, runsFrom_delims [' '] spaces (fun c hc => by simp [hsp c hc]),
    runsFrom_run [' '] tok htok, List.nil_append,
    runsFrom_delim [' '] tok hne ' ' (by simp)]
  cases h : runsFrom [' '] [] R with
  | nil => rfl
  | cons a l =>
    rw [List.getLast?_cons_cons]
    cases h2 : (a :: l).getLast? with
    | none => simp at h2
    | some w => rfl

/-- The segments of a text given by its pieces. -/
theorem segments_pieces (fin : List Char) (hfin : ∀ c ∈ fin, c ≠ NUL ∧ c ∉ [';', '\n']) :
    ∀ (ps : List Piece), (∀ p ∈ ps, p.ok) → ∀ (lead : List Char),
      (∀ c ∈ lead, c ∈ [';', '\n']) →
      segments (lead ++ textOf ps ++ fin)
        = ps.map Piece.seg ++ (if fin = [] then [] else [fin]) := by
  intro ps
  induction ps with
  | nil =>
    intro _ lead hlead
    unfold segments
    rw [textOf, List.append_nil, runsFrom_delims _ lead hlead,
      runsFrom_end _ fin (fun c hc => (hfin c hc).2)]
    simp
  | cons p ps ih =>
    intro hok lead hlead
    obtain ⟨hne, hseg, hsep, hmore⟩ := hok p (by simp)
    have h := ih (fun q hq => hok q (by simp [hq])) p.more hmore
    unfold segments at h ⊢
    have e : lead ++ textOf (p :: ps) ++ fin
        = lead ++ (p.seg ++ p.sep :: (p.more ++ textOf ps ++ fin)) := by
      simp [textOf, Piece.text]
    rw [e, runsFrom_delims _ lead hlead, runsFrom_run _ p.seg (fun c hc => (hseg c hc).2),
      List.nil_append, runsFrom_delim _ p.seg hne p.sep hsep, h]
    simp

/-- Every text without terminator is made of leading delimiters, pieces, and a last
segment that no delimiter follows. -/
theorem exists_pieces (T : List Char) (hT : NUL ∉ T) :
    ∃ (lead : List Char) (ps : List Piece) (fin : List Char),
      T = lead ++ textOf ps ++ fin ∧ (∀ c ∈ lead, c ∈ [';', '\n']) ∧ (∀ p ∈ ps, p.ok) ∧
      (∀ c ∈ fin, c ≠ NUL ∧ c ∉ [';', '\n']) := by
  induction T with
  | nil => exact ⟨[], [], [], rfl, by simp, by simp, by simp⟩
  | cons c T ih =>
    have hc : c ≠ NUL := fun h => hT (by simp [h])
    obtain ⟨lead, ps, fin, hTeq, hlead, hps, hfin⟩ := ih (fun h => hT (by simp [h]))
    by_cases hsep : c ∈ [';', '\n']
    · refine ⟨c :: lead, ps, fin, by rw [hTeq]; simp, ?_, hps, hfin⟩
      intro x hx
      rcases List.mem_cons.mp hx with h | h
      · rw [h]; exact hsep
      · exact hlead x h
    · cases lead with
      | cons d D =>
        refine ⟨[], ⟨[c], d, D⟩ :: ps, fin, by rw [hTeq]; simp [textOf, Piece.text], by simp,
          ?_, hfin⟩
        intro p hp
        rcases List.mem_cons.mp hp with h | h
        · subst h
          refine ⟨by simp, ?_, hlead d (by simp), fun x hx => hlead x (by simp [hx])⟩
          intro x hx
          have : x = c := by simpa using hx
          subst this
          exact ⟨hc, hsep⟩
        · exact hps p h
      | nil =>
        cases ps with
        | nil =>
          refine ⟨[], [], c :: fin, by rw [hTeq]; simp [textOf], by simp, by simp, ?_⟩
          intro x hx
          rcases List.mem_cons.mp hx with h | h
          · rw [h]; exact ⟨hc, hsep⟩
          · exact hfin x h
        | cons p ps =>
          obtain ⟨hne, hseg, hsp, hmore⟩ := hps p (by simp)
          refine ⟨[], ⟨c :: p.seg, p.sep, p.more⟩ :: ps, fin,
            by rw [hTeq]; simp [textOf, Piece.text], by simp, ?_, hfin⟩
          intro q hq
          rcases List.mem_cons.mp hq with h | h
          · subst h
            refine ⟨by simp, ?_, hsp, hmore⟩
            intro x hx
            rcases List.mem_cons.mp hx with h | h
            · rw [h]; exact ⟨hc, hsep⟩
            · exact hseg x h
          · exact hps q (by simp [h])



/-! ## One line of the scanner -/

theorem lastTokenIs_append {M : List Char} {lt : Option Nat} {prev : Option (List Char)}
    (Y : List Char) (h : lastTokenIs M lt prev) : lastTokenIs (M ++ Y) lt prev := by
  cases lt with
  | none =>
    cases prev with
    | none => trivial
    | some w => exact h.elim
  | some p =>
    cases prev with
    | none => exact h.elim
    | some w =>
      obtain ⟨A, B, hM, hA, hw⟩ := h
      exact ⟨A, B ++ Y, by rw [hM]; simp, hA, hw⟩

theorem lastTokenIs_cstr {M : List Char} {p : Nat} {prev : Option (List Char)}
    (Y : List Char) (h : lastTokenIs M (some p) prev) :
    ∃ w, prev = some w ∧ cstr ((M ++ Y).drop p) = .ok w := by
  cases prev with
  | none => exact h.elim
  | some w =>
    obtain ⟨A, B, hM, hA, hw⟩ := h
    refine ⟨w, rfl, ?_⟩
    have : M ++ Y = A ++ (w ++ NUL :: (B ++ Y)) := by rw [hM]; simp
    rw [this, drop_at hA]
    exact cstr_run w _ hw

theorem lastTokenIs_none {M : List Char} {prev : Option (List Char)}
    (h : lastTokenIs M none prev) : prev = none := by
  cases prev with
  | none => rfl
  | some w => exact h.elim

/-- Every text is a run of characters with a property followed by nothing or by a
text whose first character lacks the property. -/
theorem span_cases (p : Char → Prop) (R : List Char) :
    ∃ a b, R = a ++ b ∧ (∀ c ∈ a, p c) ∧ (b = [] ∨ ∃ y b1, b = y :: b1 ∧ ¬ p y) := by
  induction R with
  | nil => exact ⟨[], [], rfl, by simp, Or.inl rfl⟩
  | cons c R ih =>
    by_cases hc : p c
    · obtain ⟨a, b, hR, ha, hb⟩ := ih
      refine ⟨c :: a, b, by rw [hR]; rfl, ?_, hb⟩
      intro x hx
      rcases List.mem_cons.mp hx with h | h
      · rw [h]; exact hc
      · exact ha x h
    · exact ⟨[], c :: R, rfl, by simp, Or.inr ⟨c, R, rfl, hc⟩⟩

/-- The `while` loop of the `layout` branch on the rest `R` of a segment: it ends,
changes the buffer only inside `R`, and leaves `lastToken` null or at a terminated
text. -/
theorem layoutLoop_frame (X : List Char) (n : Nat) :
    ∀ (R P : List Char) (lt : Option Nat) (prev : Option (List Char)) (fuel : Nat),
      R.length ≤ n → R.length + 2 ≤ fuel → NUL ∉ R → lastTokenIs P lt prev →
      ∃ (R1 : List Char) (save1 : Nat) (lt1 : Option Nat),
        layoutLoop fuel (P ++ R ++ NUL :: X) P.length lt
          = .ok (P ++ R1 ++ NUL :: X, save1, lt1) ∧
        R1.length = R.length ∧ lastTokenIs (P ++ R1 ++ [NUL]) lt1 (lastWordOr prev R) := by
  induction n with
  | zero =>
    intro R P lt prev fuel hn hfuel _ hlt
    have hR : R = [] := List.length_eq_zero.mp (Nat.le_zero.mp hn)
    subst hR
    obtain ⟨f, rfl⟩ : ∃ f, fuel = f + 1 := ⟨fuel - 1, by simp at hfuel; omega⟩
    have h := strtok_none [' '] P [] X P.length none rfl (by simp)
    simp only [List.append_nil] at h
    refine ⟨[], P.length + ([] : List Char).length, lt, ?_, rfl, ?_⟩
    · rw [layoutLoop]
      simp only [List.append_nil, h]
    · rw [lastWordOr_blank prev [] (by simp)]
      exact lastTokenIs_append _ (by simpa using hlt)
  | succ n ih =>
    intro R P lt prev fuel hn hfuel hR hlt
    obtain ⟨f, rfl⟩ : ∃ f, fuel = f + 1 := ⟨fuel - 1, by omega⟩
    obtain ⟨spaces, R1, hsplit, hsp, hR1⟩ := span_cases (fun c => c = ' ') R
    have hspaces : ∀ c ∈ spaces, c ≠ NUL ∧ c ∈ [' '] := by
      intro c hc
      have := hsp c hc
      subst this
      exact ⟨by decide, by simp⟩
    rcases hR1 with hR1 | ⟨y, R2, hR1, hy⟩
    · -- only spaces are left
      subst hR1
      simp only [List.append_nil] at hsplit
      subst hsplit
      have h := strtok_none [' '] P R X P.length none rfl hspaces
      refine ⟨R, P.length + R.length, lt, ?_, rfl, ?_⟩
      · rw [layoutLoop]
        simp only [h]
      · rw [lastWordOr_blank prev R hsp]
        exact lastTokenIs_append _ (lastTokenIs_append _ hlt)
    · -- a token starts at `y`
      obtain ⟨tok1, R3, hsplit2, htok1, hR3⟩ := span_cases (fun c => c ≠ ' ') R2
      have hnul : ∀ c ∈ R, c ≠ NUL := fun c hc h => hR (h ▸ hc)
      have htok : ∀ c ∈ y :: tok1, c ≠ NUL ∧ c ∉ [' '] := by
        intro c hc
        refine ⟨hnul c ?_, ?_⟩
        · rw [hsplit, hR1, hsplit2]
          rcases List.mem_cons.mp hc with h | h
          · simp [h]
          · simp [h]
        · rcases List.mem_cons.mp hc with h | h
          · rw [h]; simpa using hy
          · simpa using htok1 c h
      have hw : NUL ∉ y :: tok1 := fun h => (htok _ h).1 rfl
      rcases hR3 with hR3 | ⟨z, R4, hR3, hz⟩
      · -- the token runs to the end of the segment
        subst hR3
        simp only [List.append_nil] at hsplit2
        subst hsplit2
        subst hR1
        subst hsplit
        have h := strtok_token [' '] P spaces (y :: R2) NUL X P.length none rfl hspaces htok
          (by simp) (Or.inl rfl)
        simp only [if_true, Nat.add_zero] at h
        obtain ⟨f2, rfl⟩ : ∃ f2, f = f2 + 1 := ⟨f - 1, by
          simp only [List.length_append, List.length_cons] at hfuel; omega⟩
        have h2 := strtok_none [' '] (P ++ spaces ++ (y :: R2)) [] X
          (P.length + spaces.length + (y :: R2).length) none
          (by simp only [Option.getD_none, List.length_append]) (by simp)
        simp only [List.append_nil] at h2
        refine ⟨spaces ++ y :: R2, (P ++ spaces ++ y :: R2).length + ([] : List Char).length,
          some (P.length + spaces.length), ?_, rfl, ?_⟩
        · rw [layoutLoop]
          have e : P ++ (spaces ++ y :: R2) ++ NUL :: X = P ++ spaces ++ (y :: R2) ++ NUL :: X := by
            simp
          rw [e]
          simp only [h]
          rw [layoutLoop]
          simp only [h2]
        · rw [lastWordOr_word prev spaces (y :: R2) hsp (fun c hc => (htok c hc).2) (by simp)]
          exact ⟨P ++ spaces, [], by simp, by simp, hw⟩
      · -- the token is followed by a space
        have hzsp : z = ' ' := by simpa using hz
        subst hzsp
        subst hR3
        subst hsplit2
        subst hR1
        subst hsplit
        have h := strtok_token [' '] P spaces (y :: tok1) ' ' (R4 ++ NUL :: X) P.length none rfl
          hspaces htok (by simp) (Or.inr (by simp))
        have hne : ¬ (' ' = NUL) := by decide
        simp only [if_neg hne] at h
        have hR4 : NUL ∉ R4 := fun h => hR (by simp [h])
        have hlen4 : R4.length ≤ n := by
          simp only [List.length_append, List.length_cons] at hn; omega
        have hfuel4 : R4.length + 2 ≤ f := by
          simp only [List.length_append, List.length_cons] at hfuel; omega
        have hlt4 : lastTokenIs (P ++ spaces ++ (y :: tok1) ++ [NUL])
            (some (P.length + spaces.length)) (some (y :: tok1)) :=
          ⟨P ++ spaces, [], by simp, by simp, hw⟩
        obtain ⟨R5, save5, lt5, hrun, hlen5, hlt5⟩ :=
          ih R4 (P ++ spaces ++ (y :: tok1) ++ [NUL]) (some (P.length + spaces.length))
            (some (y :: tok1)) f hlen4 hfuel4 hR4 hlt4
        refine ⟨spaces ++ (y :: tok1) ++ NUL :: R5, save5, lt5, ?_, ?_, ?_⟩
        · rw [layoutLoop]
          have e : P ++ (spaces ++ y :: (tok1 ++ ' ' :: R4)) ++ NUL :: X
              = P ++ spaces ++ (y :: tok1) ++ ' ' :: (R4 ++ NUL :: X) := by simp
          rw [e]
          simp only [h]
          have e2 : P ++ spaces ++ (y :: tok1) ++ NUL :: (R4 ++ NUL :: X)
              = (P ++ spaces ++ (y :: tok1) ++ [NUL]) ++ R4 ++ NUL :: X := by simp
          have e3 : P.length + spaces.length + (y :: tok1).length + 1
              = (P ++ spaces ++ (y :: tok1) ++ [NUL]).length := by
            simp only [List.length_append, List.length_cons, List.length_nil]
          rw [e2, e3, hrun]
          simp
        · simp only [List.length_append, List.length_cons, hlen5]
          omega
        · have e : P ++ (spaces ++ (y :: tok1) ++ NUL :: R5) ++ [NUL]
              = (P ++ spaces ++ (y :: tok1) ++ [NUL]) ++ R5 ++ [NUL] := by simp
          have e2 : spaces ++ y :: (tok1 ++ ' ' :: R4) = spaces ++ (y :: tok1) ++ ' ' :: R4 := by
            simp
          rw [e, e2, lastWordOr_more prev spaces (y :: tok1) R4 hsp
            (fun c hc => (htok c hc).2) (by simp)]
          exact hlt5



theorem toInt32_small (n : Nat) (h : n < 2 ^ 31) : toInt32 n = (n : Int) := by
  unfold toInt32
  have e : n % 2 ^ 32 = n := Nat.mod_eq_of_lt (by omega)
  rw [e, if_pos h]

theorem blank_ne_NUL {c : Char} (h : c ∈ [' ', '(', '\n']) : c ≠ NUL := by
  intro e
  subst e
  revert h
  decide

/-- A `uniform` segment with text after the keyword: the calls are those of
`declNames` on that text, and the buffer changes inside the segment only. -/
theorem scanLine_uniform (Pre blanks R Tl : List Char) (d : Char) (save : Nat)
    (lt : Option Nat) (hb : ∀ c ∈ blanks, c ∈ [' ', '(', '\n']) (hd : d ∈ [' ', '(', '\n'])
    (hR : NUL ∉ R) (hlen : R.length < 2 ^ 31) :
    ∃ (S1 : List Char) (save1 : Nat),
      scanLine (some Pre.length)
          ⟨Pre ++ (blanks ++ "uniform".toList ++ d :: R) ++ NUL :: Tl, save, lt⟩
        = .ok (⟨Pre ++ S1 ++ NUL :: Tl, save1, lt⟩, (declNames [] R).map Call.addUniform) ∧
      S1.length = (blanks ++ "uniform".toList ++ d :: R).length := by
  have hblanks : ∀ c ∈ blanks, c ≠ NUL ∧ c ∈ [' ', '(', '\n'] :=
    fun c hc => ⟨blank_ne_NUL (hb c hc), hb c hc⟩
  have htok : ∀ c ∈ "uniform".toList, c ≠ NUL ∧ c ∉ [' ', '(', '\n'] := by decide
  have hdn : d ≠ NUL := blank_ne_NUL hd
  have hstrtok := strtok_token [' ', '(', '\n'] Pre blanks "uniform".toList d (R ++ NUL :: Tl)
    save (some Pre.length) rfl hblanks htok (by decide) (Or.inr hd)
  simp only [if_neg hdn] at hstrtok
  have hcmp : strcmp ((Pre ++ blanks ++ "uniform".toList ++ NUL :: (R ++ NUL :: Tl)).drop
      (Pre.length + blanks.length)) "uniform".toList = .ok true := by
    have : Pre ++ blanks ++ "uniform".toList ++ NUL :: (R ++ NUL :: Tl)
        = (Pre ++ blanks) ++ ("uniform".toList ++ NUL :: (R ++ NUL :: Tl)) := by simp
    rw [this, drop_at (by simp)]
    exact strcmp_self _ _
  have hnul : NUL ∉ blanks ++ "uniform".toList := by
    intro h
    rcases List.mem_append.mp h with h | h
    · exact (hblanks _ h).1 rfl
    · exact (htok _ h).1 rfl
  have hlen1 : strlen ((Pre ++ blanks ++ "uniform".toList ++ NUL :: (R ++ NUL :: Tl)).drop
      Pre.length) = .ok (blanks ++ "uniform".toList).length := by
    have : Pre ++ blanks ++ "uniform".toList ++ NUL :: (R ++ NUL :: Tl)
        = Pre ++ ((blanks ++ "uniform".toList) ++ NUL :: (R ++ NUL :: Tl)) := by simp
    rw [this, drop_at rfl]
    exact strlen_run _ _ hnul
  have hlen2 : strlen ((Pre ++ blanks ++ "uniform".toList ++ NUL :: (R ++ NUL :: Tl)).drop
      (Pre.length + (blanks ++ "uniform".toList).length + 1)) = .ok R.length := by
    have : Pre ++ blanks ++ "uniform".toList ++ NUL :: (R ++ NUL :: Tl)
        = (Pre ++ blanks ++ "uniform".toList ++ [NUL]) ++ (R ++ NUL :: Tl) := by simp
    rw [this, drop_at (by simp only [List.length_append, List.length_singleton]; omega)]
    exact strlen_run _ _ hR
  obtain ⟨done1, cur1, last1, calls, hloop, hlast1, hcur1, hlens, hcalls⟩ :=
    uniformLoop_spec (Pre ++ blanks ++ "uniform".toList ++ [NUL]) Tl R [] [] (-1)
      (by simp) (by simp) hR
  have hloop2 : uniformLoop (Pre.length + (blanks ++ "uniform".toList).length + 1)
      (toInt32 R.length).toNat 0
      (Pre ++ blanks ++ "uniform".toList ++ NUL :: (R ++ NUL :: Tl)) (-1)
      = .ok (Pre ++ blanks ++ "uniform".toList ++ [NUL] ++ done1 ++ cur1 ++ NUL :: Tl,
          last1, calls) := by
    have e1 : (toInt32 R.length).toNat = R.length := by
      rw [toInt32_small _ hlen]; simp
    have e2 : Pre.length + (blanks ++ "uniform".toList).length + 1
        = (Pre ++ blanks ++ "uniform".toList ++ [NUL]).length := by
      simp only [List.length_append, List.length_singleton]; omega
    have e3 : Pre ++ blanks ++ "uniform".toList ++ NUL :: (R ++ NUL :: Tl)
        = Pre ++ blanks ++ "uniform".toList ++ [NUL] ++ [] ++ [] ++ R ++ NUL :: Tl := by simp
    rw [e1, e2, e3]
    exact hloop
  have hname : cstr ((Pre ++ blanks ++ "uniform".toList ++ [NUL] ++ done1 ++ cur1
      ++ NUL :: Tl).drop (Pre.length + (blanks ++ "uniform".toList).length + 1
        + (last1 + 1).toNat)) = .ok cur1 := by
    have e1 : (last1 + 1).toNat = done1.length := by rw [hlast1]; simp
    have e2 : Pre ++ blanks ++ "uniform".toList ++ [NUL] ++ done1 ++ cur1 ++ NUL :: Tl
        = (Pre ++ blanks ++ "uniform".toList ++ [NUL] ++ done1) ++ (cur1 ++ NUL :: Tl) := by
      simp
    rw [e1, e2, drop_at (by simp only [List.length_append, List.length_singleton]; omega)]
    exact cstr_run _ _ hcur1
  refine ⟨blanks ++ "uniform".toList ++ [NUL] ++ done1 ++ cur1,
    Pre.length + blanks.length + "uniform".toList.length + 1, ?_, ?_⟩
  · have e0 : Pre ++ (blanks ++ "uniform".toList ++ d :: R) ++ NUL :: Tl
        = Pre ++ blanks ++ "uniform".toList ++ d :: (R ++ NUL :: Tl) := by simp
    have e9 : Pre ++ blanks ++ "uniform".toList ++ [NUL] ++ done1 ++ cur1 ++ NUL :: Tl
        = Pre ++ (blanks ++ "uniform".toList ++ [NUL] ++ done1 ++ cur1) ++ NUL :: Tl := by
      simp
    rw [← e9, e0]
    unfold scanLine
    simp only [hstrtok]
    simp only [hcmp]
    rw [hlen1]
    dsimp only
    rw [hlen2]
    dsimp only
    rw [hloop2]
    dsimp only
    rw [hname]
    dsimp only
    rw [hcalls]
  · simp only [List.length_append, List.length_cons, List.length_nil] at hlens ⊢
    omega



theorem dropWhile_run (p : Char → Bool) (a b : List Char) (ha : ∀ c ∈ a, p c = true)
    (hb : b = [] ∨ ∃ y b1, b = y :: b1 ∧ p y = false) : (a ++ b).dropWhile p = b := by
  induction a with
  | nil =>
    rcases hb with hb | ⟨y, b1, hb, hy⟩
    · subst hb; rfl
    · subst hb; simp [List.dropWhile, hy]
  | cons c a ih =>
    have hc := ha c (by simp)
    have := ih (fun d hd => ha d (by simp [hd]))
    simp [List.dropWhile, hc, this]

theorem takeWhile_run (p : Char → Bool) (a b : List Char) (ha : ∀ c ∈ a, p c = true)
    (hb : b = [] ∨ ∃ y b1, b = y :: b1 ∧ p y = false) : (a ++ b).takeWhile p = a := by
  induction a with
  | nil =>
    rcases hb with hb | ⟨y, b1, hb, hy⟩
    · subst hb; rfl
    · subst hb; simp [List.takeWhile, hy]
  | cons c a ih =>
    have hc := ha c (by simp)
    have := ih (fun d hd => ha d (by simp [hd]))
    simp [List.takeWhile, hc, this]

/-- The calls for a segment made of leading delimiters, a first token, and what
follows the token. -/
theorem segmentCalls_parts (prev : Option (List Char)) (blanks tok tail : List Char)
    (hb : ∀ c ∈ blanks, c ∈ [' ', '(', '\n']) (htok : ∀ c ∈ tok, c ∉ [' ', '(', '\n'])
    (htail : tail = [] ∨ ∃ z R, tail = z :: R ∧ z ∈ [' ', '(', '\n'])
    (hne : tok ≠ [] ∨ tail = []) :
    segmentCalls prev (blanks ++ tok ++ tail) =
      if tok = "uniform".toList then ((declNames [] (tail.drop 1)).map Call.addUniform, prev)
      else if tok = "layout".toList then
        match lastWordOr prev (tail.drop 1) with
        | some name => ([Call.addAttribute name], some name)
        | none => ([], none)
      else ([], prev) := by
  have h1 : (blanks ++ tok ++ tail).dropWhile (fun c => decide (c ∈ [' ', '(', '\n']))
      = tok ++ tail := by
    rw [List.append_assoc]
    apply dropWhile_run _ blanks _ (fun c hc => by simpa using hb c hc)
    cases tok with
    | nil =>
      rcases hne with h | h
      · exact absurd rfl h
      · left; rw [h]; rfl
    | cons y tok1 =>
      right
      exact ⟨y, tok1 ++ tail, rfl, by simpa using htok y (by simp)⟩
  have htail2 : tail = [] ∨ ∃ y b1, tail = y :: b1 ∧
      (fun c => decide (c ∉ [' ', '(', '\n'])) y = false := by
    rcases htail with h | ⟨z, R, h, hz⟩
    · exact Or.inl h
    · exact Or.inr ⟨z, R, h, by simp only [decide_eq_false_iff_not, not_not]; exact hz⟩
  have h2 : (tok ++ tail).takeWhile (fun c => decide (c ∉ [' ', '(', '\n'])) = tok :=
    takeWhile_run _ tok tail (fun c hc => by simpa using htok c hc) htail2
  have h3 : (tok ++ tail).dropWhile (fun c => decide (c ∉ [' ', '(', '\n'])) = tail :=
    dropWhile_run _ tok tail (fun c hc => by simpa using htok c hc) htail2
  unfold segmentCalls
  simp only [h1, h2, h3]

/-- The body of the loop once the first token is known and is not `uniform`. -/
theorem scanLine_not_uniform (mem0 : Buf) (save : Nat) (lt line : Option Nat) (mem1 : Buf)
    (save1 token : Nat) (tok Y : List Char)
    (hstrtok : strtok mem0 save line [' ', '(', '\n'] = .ok (mem1, save1, some token))
    (hmem1 : mem1.drop token = tok ++ NUL :: Y) (htok : NUL ∉ tok)
    (hne : tok ≠ "uniform".toList) :
    scanLine line ⟨mem0, save, lt⟩ =
      if tok = "layout".toList then
        match layoutLoop (mem1.length + 1) mem1 save1 lt with
        | .error e => .error e
        | .ok (mem2, save2, none) => .ok (⟨mem2, save2, none⟩, [])
        | .ok (mem2, save2, some lastToken) =>
          match cstr (mem2.drop lastToken) with
          | .error e => .error e
          | .ok name => .ok (⟨mem2, save2, some lastToken⟩, [Call.addAttribute name])
      else .ok (⟨mem1, save1, lt⟩, []) := by
  have h1 : strcmp (mem1.drop token) "uniform".toList = .ok false := by
    rw [hmem1]
    exact strcmp_ne tok _ Y htok (by decide) hne
  unfold scanLine
  simp only [hstrtok, h1]
  by_cases hl : tok = "layout".toList
  · have h2 : strcmp (mem1.drop token) "layout".toList = .ok true := by
      rw [hmem1, hl]
      exact strcmp_self _ _
    simp only [h2, if_pos hl]
  · have h2 : strcmp (mem1.drop token) "layout".toList = .ok false := by
      rw [hmem1]
      exact strcmp_ne tok _ Y htok (by decide) hl
    simp only [h2, if_neg hl]

/-- The result of the `layout` branch, given what the loop over its tokens did. -/
theorem layout_branch_frame (M Tl : List Char) (save2 : Nat) (lt2 : Option Nat)
    (prev2 : Option (List Char)) (hlt : lastTokenIs (M ++ [NUL]) lt2 prev2) :
    (match (Except.ok (M ++ NUL :: Tl, save2, lt2) : Except Fault (Buf × Nat × Option Nat)) with
      | .error e => .error e
      | .ok (mem2, save2, none) => .ok (⟨mem2, save2, none⟩, [])
      | .ok (mem2, save2, some lastToken) =>
        match cstr (mem2.drop lastToken) with
        | .error e => .error e
        | .ok name => .ok (⟨mem2, save2, some lastToken⟩, [Call.addAttribute name]))
    = (Except.ok (⟨M ++ NUL :: Tl, save2, lt2⟩,
        (match prev2 with
          | some name => ([Call.addAttribute name], some name)
          | none => (([] : List Call), (none : Option (List Char)))).1) :
        Except Fault (Scan × List Call)) ∧
    (match prev2 with
      | some name => ([Call.addAttribute name], some name)
      | none => (([] : List Call), (none : Option (List Char)))).2 = prev2 := by
  cases lt2 with
  | none =>
    have := lastTokenIs_none hlt
    subst this
    exact ⟨rfl, rfl⟩
  | some p =>
    obtain ⟨w, hp, hw⟩ := lastTokenIs_cstr Tl hlt
    subst hp
    have e : M ++ [NUL] ++ Tl = M ++ NUL :: Tl := by simp
    rw [e] at hw
    exact ⟨by simp only [hw], rfl⟩

/-- A segment that is not the bare keyword `uniform`: the scanner does not fault,
makes the calls of `segmentCalls`, changes the buffer inside the segment only, and
leaves `lastToken` as `segmentCalls` says. -/
theorem scanLine_frame (Pre S Tl : List Char) (save : Nat) (lt : Option Nat)
    (prev : Option (List Char)) (hS : NUL ∉ S) (hbare : ¬ bareUniform S)
    (hlen : S.length < 2 ^ 31) (hlt : lastTokenIs Pre lt prev) :
    ∃ (S1 : List Char) (save1 : Nat) (lt1 : Option Nat),
      scanLine (some Pre.length) ⟨Pre ++ S ++ NUL :: Tl, save, lt⟩
        = .ok (⟨Pre ++ S1 ++ NUL :: Tl, save1, lt1⟩, (segmentCalls prev S).1) ∧
      S1.length = S.length ∧ lastTokenIs (Pre ++ S1 ++ [NUL]) lt1 (segmentCalls prev S).2 := by
  obtain ⟨blanks, S2, hsplit, hbl, hS2⟩ := span_cases (fun c => c ∈ [' ', '(', '\n']) S
  have hblanks : ∀ c ∈ blanks, c ≠ NUL ∧ c ∈ [' ', '(', '\n'] :=
    fun c hc => ⟨blank_ne_NUL (hbl c hc), hbl c hc⟩
  rcases hS2 with hS2 | ⟨y, S3, hS2, hy⟩
  · -- the segment has no token
    subst hS2
    simp only [List.append_nil] at hsplit
    subst hsplit
    have h := strtok_none [' ', '(', '\n'] Pre S Tl save (some Pre.length) rfl hblanks
    have hcalls := segmentCalls_parts prev S [] [] hbl (by simp) (Or.inl rfl) (Or.inr rfl)
    simp only [List.append_nil] at hcalls
    rw [hcalls, if_neg (by decide), if_neg (by decide)]
    refine ⟨S, Pre.length + S.length, lt, ?_, rfl, ?_⟩
    · unfold scanLine
      simp only [h]
    · exact lastTokenIs_append _ (lastTokenIs_append _ hlt)
  · obtain ⟨tok1, S4, hsplit2, htok1, hS4⟩ := span_cases (fun c => c ∉ [' ', '(', '\n']) S3
    subst hsplit2
    subst hS2
    subst hsplit
    have hnul : ∀ c ∈ blanks ++ y :: (tok1 ++ S4), c ≠ NUL := fun c hc h => hS (h ▸ hc)
    have htok : ∀ c ∈ y :: tok1, c ≠ NUL ∧ c ∉ [' ', '(', '\n'] := by
      intro c hc
      refine ⟨hnul c ?_, ?_⟩
      · rcases List.mem_cons.mp hc with h | h
        · simp [h]
        · simp [h]
      · rcases List.mem_cons.mp hc with h | h
        · rw [h]; exact hy
        · exact htok1 c h
    have hw : NUL ∉ y :: tok1 := fun h => (htok _ h).1 rfl
    have hS4b : S4 = [] ∨ ∃ z R, S4 = z :: R ∧ z ∈ [' ', '(', '\n'] := by
      rcases hS4 with h | ⟨z, R, h, hz⟩
      · exact Or.inl h
      · exact Or.inr ⟨z, R, h, by by_contra hc; exact hz hc⟩
    have hcalls := segmentCalls_parts prev blanks (y :: tok1) S4 hbl
      (fun c hc => (htok c hc).2) hS4b (Or.inl (by simp))
    have eS : blanks ++ y :: (tok1 ++ S4) = blanks ++ (y :: tok1) ++ S4 := by simp
    rw [eS, hcalls]
    rcases hS4b with hS4 | ⟨z, R, hS4, hzd⟩
    · -- the token runs to the end of the segment
      subst hS4
      simp only [List.append_nil] at *
      have hne : y :: tok1 ≠ "uniform".toList := by
        intro h
        apply hbare
        unfold bareUniform
        rw [dropWhile_run _ blanks _ (fun c hc => by simpa using hbl c hc)
          (Or.inr ⟨y, tok1, rfl, by simpa using hy⟩), h]
      have h := strtok_token [' ', '(', '\n'] Pre blanks (y :: tok1) NUL Tl save
        (some Pre.length) rfl hblanks htok (by simp) (Or.inl rfl)
      simp only [if_true, Nat.add_zero] at h
      have hmem1 : (Pre ++ blanks ++ (y :: tok1) ++ NUL :: Tl).drop (Pre.length + blanks.length)
          = (y :: tok1) ++ NUL :: Tl := by
        have : Pre ++ blanks ++ (y :: tok1) ++ NUL :: Tl
            = (Pre ++ blanks) ++ ((y :: tok1) ++ NUL :: Tl) := by simp
        rw [this]
        exact drop_at (by simp)
      have e0 : Pre ++ (blanks ++ y :: tok1) ++ NUL :: Tl
          = Pre ++ blanks ++ (y :: tok1) ++ NUL :: Tl := by simp
      rw [e0, scanLine_not_uniform _ save lt _ _ _ _ _ Tl h hmem1 hw hne, if_neg hne]
      by_cases hl : y :: tok1 = "layout".toList
      · rw [if_pos hl, if_pos hl]
        obtain ⟨R1, save2, lt2, hrun, hlen2, hlt2⟩ :=
          layoutLoop_frame Tl 0 [] (Pre ++ blanks ++ (y :: tok1)) lt prev
            ((Pre ++ blanks ++ (y :: tok1) ++ NUL :: Tl).length + 1) (by simp)
            (by simp only [List.length_append, List.length_cons, List.length_nil]; omega)
            (by simp) (lastTokenIs_append _ (lastTokenIs_append _ hlt))
        have hR1 : R1 = [] := List.length_eq_zero.mp (by simpa using hlen2)
        subst hR1
        simp only [List.append_nil, List.drop_nil] at hrun hlt2 ⊢
        have e1 : Pre.length + blanks.length + (y :: tok1).length
            = (Pre ++ blanks ++ (y :: tok1)).length := by
          simp only [List.length_append]
        rw [e1, hrun]
        obtain ⟨hcalls2, hprev2⟩ := layout_branch_frame (Pre ++ blanks ++ (y :: tok1)) Tl save2
          lt2 _ hlt2
        refine ⟨blanks ++ y :: tok1, save2, lt2, ?_, rfl, ?_⟩
        · rw [hcalls2]; simp
        · rw [hprev2]; simpa using hlt2
      · rw [if_neg hl, if_neg hl]
        refine ⟨blanks ++ y :: tok1, Pre.length + blanks.length + (y :: tok1).length, lt,
          by simp, rfl, ?_⟩
        exact lastTokenIs_append _ (lastTokenIs_append _ hlt)
    · -- the token is followed by a delimiter
      subst hS4
      simp only [List.drop_succ_cons, List.drop_zero]
      by_cases hne : y :: tok1 = "uniform".toList
      · obtain ⟨S1, save1, hrun, hlen1⟩ :=
          scanLine_uniform Pre blanks R Tl z save lt hbl hzd
            (fun h => hS (by simp [h]))
            (by simp only [List.length_append, List.length_cons] at hlen; omega)
        rw [← hne] at hrun hlen1
        rw [if_pos hne]
        refine ⟨S1, save1, lt, ?_, ?_, ?_⟩
        · exact hrun
        · exact hlen1
        · exact lastTokenIs_append _ (lastTokenIs_append _ hlt)
      · have h := strtok_token [' ', '(', '\n'] Pre blanks (y :: tok1) z (R ++ NUL :: Tl) save
          (some Pre.length) rfl hblanks htok (by simp) (Or.inr hzd)
        have hzn : z ≠ NUL := blank_ne_NUL hzd
        simp only [if_neg hzn] at h
        have hmem1 : (Pre ++ blanks ++ (y :: tok1) ++ NUL :: (R ++ NUL :: Tl)).drop
            (Pre.length + blanks.length) = (y :: tok1) ++ NUL :: (R ++ NUL :: Tl) := by
          have : Pre ++ blanks ++ (y :: tok1) ++ NUL :: (R ++ NUL :: Tl)
              = (Pre ++ blanks) ++ ((y :: tok1) ++ NUL :: (R ++ NUL :: Tl)) := by simp
          rw [this]
          exact drop_at (by simp)
        have e0 : Pre ++ (blanks ++ (y :: tok1) ++ z :: R) ++ NUL :: Tl
            = Pre ++ blanks ++ (y :: tok1) ++ z :: (R ++ NUL :: Tl) := by simp
        rw [e0, scanLine_not_uniform _ save lt _ _ _ _ _ _ h hmem1 hw hne, if_neg hne]
        by_cases hl : y :: tok1 = "layout".toList
        · rw [if_pos hl, if_pos hl]
          have hR : NUL ∉ R := fun h => hS (by simp [h])
          obtain ⟨R1, save2, lt2, hrun, hlen2, hlt2⟩ :=
            layoutLoop_frame Tl R.length R (Pre ++ blanks ++ (y :: tok1) ++ [NUL]) lt prev
              ((Pre ++ blanks ++ (y :: tok1) ++ [NUL] ++ R ++ NUL :: Tl).length + 1) (le_refl _)
              (by simp only [List.length_append, List.length_cons, List.length_nil]; omega)
              hR (lastTokenIs_append _ (lastTokenIs_append _ (lastTokenIs_append _ hlt)))
          have e1 : Pre.length + blanks.length + (y :: tok1).length + 1
              = (Pre ++ blanks ++ (y :: tok1) ++ [NUL]).length := by
            simp only [List.length_append, List.length_cons, List.length_nil]
          have e2 : Pre ++ blanks ++ (y :: tok1) ++ NUL :: (R ++ NUL :: Tl)
              = Pre ++ blanks ++ (y :: tok1) ++ [NUL] ++ R ++ NUL :: Tl := by simp
          rw [e1, e2, hrun]
          obtain ⟨hcalls2, hprev2⟩ := layout_branch_frame
            (Pre ++ blanks ++ (y :: tok1) ++ [NUL] ++ R1) Tl save2 lt2 _ hlt2
          refine ⟨blanks ++ (y :: tok1) ++ [NUL] ++ R1, save2, lt2, ?_, ?_, ?_⟩
          · rw [hcalls2]; simp
          · simp only [List.length_append, List.length_cons, List.length_nil, hlen2]; omega
          · rw [hprev2]; simpa using hlt2
        · rw [if_neg hl, if_neg hl]
          refine ⟨blanks ++ (y :: tok1) ++ NUL :: R,
            Pre.length + blanks.length + (y :: tok1).length + 1, lt, by simp, ?_, ?_⟩
          · simp only [List.length_append, List.length_cons]
          · exact lastTokenIs_append _ (lastTokenIs_append _ hlt)



/-! ## Cutting the text into lines -/

theorem sep_ne_NUL {c : Char} (h : c ∈ [';', '\n']) : c ≠ NUL := by
  intro e
  subst e
  revert h
  decide

theorem length_cutOf (ps : List Piece) : (cutOf ps).length = (textOf ps).length := by
  induction ps with
  | nil => rfl
  | cons p ps ih => simp [cutOf, textOf, Piece.cut, Piece.text, ih]

/-- The loop that collects the lines, started where only the delimiters `lead`
separate the internal pointer of `strtok` from the pieces `ps` and the last,
unterminated segment `fin`: every segment becomes a line, and the delimiter after
each piece is overwritten. -/
theorem readLines_spec (fin : List Char) (hfin : ∀ c ∈ fin, c ≠ NUL ∧ c ∉ [';', '\n']) :
    ∀ (ps : List Piece), (∀ p ∈ ps, p.ok) →
    ∀ (P lead : List Char) (fuel : Nat), (∀ c ∈ lead, c ∈ [';', '\n']) →
      ps.length + 2 ≤ fuel →
      ∃ save1,
        readLines fuel (P ++ lead ++ textOf ps ++ fin ++ [NUL]) P.length
          = .ok (P ++ lead ++ cutOf ps ++ fin ++ [NUL], save1,
              offsets (P.length + lead.length) ps ++
                (if fin = [] then []
                  else [some (P.length + lead.length + (textOf ps).length)])) := by
  intro ps
  induction ps with
  | nil =>
    intro _ P lead fuel hlead hfuel
    have hl : ∀ c ∈ lead, c ≠ NUL ∧ c ∈ [';', '\n'] :=
      fun c hc => ⟨sep_ne_NUL (hlead c hc), hlead c hc⟩
    obtain ⟨f, rfl⟩ : ∃ f, fuel = f + 1 := ⟨fuel - 1, by simp at hfuel; omega⟩
    obtain ⟨f2, rfl⟩ : ∃ f2, f = f2 + 1 := ⟨f - 1, by simp at hfuel; omega⟩
    simp only [textOf, cutOf, List.append_nil, offsets, List.nil_append, List.length_nil,
      Nat.add_zero]
    by_cases hf : fin = []
    · subst hf
      have h := strtok_none [';', '\n'] P lead [] P.length none rfl hl
      refine ⟨P.length + lead.length, ?_⟩
      rw [readLines]
      simp only [List.append_nil, h, if_true]
    · have h := strtok_token [';', '\n'] P lead fin NUL [] P.length none rfl hl hfin hf
        (Or.inl rfl)
      simp only [if_true, Nat.add_zero] at h
      have h2 := strtok_none [';', '\n'] (P ++ lead ++ fin) [] []
        (P.length + lead.length + fin.length) none
        (by simp only [Option.getD_none, List.length_append]) (by simp)
      simp only [List.append_nil] at h2
      refine ⟨(P ++ lead ++ fin).length + ([] : List Char).length, ?_⟩
      rw [readLines]
      simp only [h]
      rw [readLines]
      simp only [h2, if_neg hf]
  | cons p ps ih =>
    intro hok P lead fuel hlead hfuel
    have hl : ∀ c ∈ lead, c ≠ NUL ∧ c ∈ [';', '\n'] :=
      fun c hc => ⟨sep_ne_NUL (hlead c hc), hlead c hc⟩
    obtain ⟨hne, hseg, hsep, hmore⟩ := hok p (by simp)
    obtain ⟨f, rfl⟩ : ∃ f, fuel = f + 1 := ⟨fuel - 1, by simp at hfuel; omega⟩
    have h := strtok_token [';', '\n'] P lead p.seg p.sep
      (p.more ++ textOf ps ++ fin ++ [NUL]) P.length none rfl hl hseg hne (Or.inr hsep)
    simp only [if_neg (sep_ne_NUL hsep)] at h
    obtain ⟨save1, hrec⟩ := ih (fun q hq => hok q (by simp [hq])) (P ++ lead ++ p.seg ++ [NUL])
      p.more f hmore (by simp at hfuel; omega)
    refine ⟨save1, ?_⟩
    have e0 : P ++ lead ++ textOf (p :: ps) ++ fin ++ [NUL]
        = P ++ lead ++ p.seg ++ p.sep :: (p.more ++ textOf ps ++ fin ++ [NUL]) := by
      simp [textOf, Piece.text]
    have e1 : P ++ lead ++ p.seg ++ NUL :: (p.more ++ textOf ps ++ fin ++ [NUL])
        = P ++ lead ++ p.seg ++ [NUL] ++ p.more ++ textOf ps ++ fin ++ [NUL] := by simp
    have e2 : P.length + lead.length + p.seg.length + 1
        = (P ++ lead ++ p.seg ++ [NUL]).length := by
      simp only [List.length_append, List.length_singleton]
    have e3 : P ++ lead ++ p.seg ++ [NUL] ++ p.more ++ cutOf ps ++ fin ++ [NUL]
        = P ++ lead ++ cutOf (p :: ps) ++ fin ++ [NUL] := by
      simp [cutOf, Piece.cut]
    have e4 : (P ++ lead ++ p.seg ++ [NUL]).length + p.more.length
        = P.length + lead.length + p.text.length := by
      rw [← e2]
      simp only [Piece.text, List.length_append, List.length_cons]
      clear e2 hfuel h hrec
      omega
    have e5 : P.length + lead.length + p.text.length + (textOf ps).length
        = P.length + lead.length + (textOf (p :: ps)).length := by
      simp only [textOf, List.length_append]
      omega
    rw [readLines, e0]
    simp only [h]
    rw [e1, e2, hrec, e3, e4, e5]
    simp only [offsets, List.cons_append]



/-! ## The loop over the lines -/

theorem scanLines_append (l1 l2 : List (Option Nat)) (st : Scan) :
    scanLines (l1 ++ l2) st =
      match scanLines l1 st with
      | .error e => .error e
      | .ok (st1, c1) =>
        match scanLines l2 st1 with
        | .error e => .error e
        | .ok (st2, c2) => .ok (st2, c1 ++ c2) := by
  induction l1 generalizing st with
  | nil =>
    simp only [List.nil_append, scanLines]
    cases scanLines l2 st with
    | error e => rfl
    | ok r => rfl
  | cons line l1 ih =>
    rw [List.cons_append, scanLines, scanLines]
    cases hline : scanLine line st with
    | error e => rfl
    | ok r =>
      obtain ⟨st1, calls⟩ := r
      simp only [ih]
      cases scanLines l1 st1 with
      | error e => rfl
      | ok r1 =>
        obtain ⟨st2, c1⟩ := r1
        simp only
        cases scanLines l2 st2 with
        | error e => rfl
        | ok r2 => simp

theorem textCalls_append (l1 l2 : List (List Char)) :
    ∀ prev, textCalls prev (l1 ++ l2) = textCalls prev l1 ++ textCalls (textLast prev l1) l2 := by
  induction l1 with
  | nil => intro prev; rfl
  | cons S l1 ih =>
    intro prev
    rw [List.cons_append, textCalls, textCalls, textLast, ih]
    rfl

/-- The loop over the lines of a list of pieces none of which is the bare keyword
`uniform`: it does not fault, changes the buffer inside the pieces only, and makes
the calls of `textCalls`. -/
theorem scanLines_frame :
    ∀ (ps : List Piece), (∀ p ∈ ps, p.ok ∧ ¬ bareUniform p.seg) →
      (textOf ps).length < 2 ^ 31 →
    ∀ (Pre Tl : List Char) (save : Nat) (lt : Option Nat) (prev : Option (List Char)),
      lastTokenIs Pre lt prev →
      ∃ (M : List Char) (save1 : Nat) (lt1 : Option Nat),
        scanLines (offsets Pre.length ps) ⟨Pre ++ cutOf ps ++ Tl, save, lt⟩
          = .ok (⟨M ++ Tl, save1, lt1⟩, textCalls prev (ps.map Piece.seg)) ∧
        M.length = (Pre ++ cutOf ps).length ∧
        lastTokenIs M lt1 (textLast prev (ps.map Piece.seg)) := by
  intro ps
  induction ps with
  | nil =>
    intro _ _ Pre Tl save lt prev hlt
    exact ⟨Pre, save, lt, by simp [offsets, cutOf, scanLines, textCalls], by simp [cutOf],
      by simpa [textLast] using hlt⟩
  | cons p ps ih =>
    intro hps hlen Pre Tl save lt prev hlt
    obtain ⟨⟨hne, hseg, hsep, hmore⟩, hbare⟩ := hps p (by simp)
    have hS : NUL ∉ p.seg := fun h => (hseg _ h).1 rfl
    have hlenp : p.seg.length < 2 ^ 31 := by
      simp only [textOf, Piece.text, List.length_append, List.length_cons] at hlen
      omega
    obtain ⟨S1, save1, lt1, hrun, hlen1, hlt1⟩ :=
      scanLine_frame Pre p.seg (p.more ++ cutOf ps ++ Tl) save lt prev hS hbare hlenp hlt
    have hlenps : (textOf ps).length < 2 ^ 31 := by
      simp only [textOf, List.length_append] at hlen
      omega
    have hlt1b : lastTokenIs (Pre ++ S1 ++ NUL :: p.more) lt1 (segmentCalls prev p.seg).2 := by
      have := lastTokenIs_append p.more hlt1
      simpa using this
    obtain ⟨M, save2, lt2, hrun2, hlenM, hlt2⟩ :=
      ih (fun q hq => hps q (by simp [hq])) hlenps (Pre ++ S1 ++ NUL :: p.more) Tl save1 lt1
        (segmentCalls prev p.seg).2 hlt1b
    refine ⟨M, save2, lt2, ?_, ?_, ?_⟩
    · have e0 : Pre ++ cutOf (p :: ps) ++ Tl
          = Pre ++ p.seg ++ NUL :: (p.more ++ cutOf ps ++ Tl) := by
        simp [cutOf, Piece.cut]
      have e1 : Pre ++ S1 ++ NUL :: (p.more ++ cutOf ps ++ Tl)
          = (Pre ++ S1 ++ NUL :: p.more) ++ cutOf ps ++ Tl := by simp
      have e2 : Pre.length + p.text.length = (Pre ++ S1 ++ NUL :: p.more).length := by
        simp only [Piece.text, List.length_append, List.length_cons, hlen1]
        omega
      simp only [offsets, scanLines, List.map_cons, textCalls]
      rw [e0, hrun]
      simp only
      rw [e1, e2, hrun2]
    · rw [hlenM]
      simp only [cutOf, Piece.cut, List.length_append, List.length_cons, hlen1]
      omega
    · simpa [textLast] using hlt2



/-! ## The scanner on a whole text -/

theorem strtok_first (mem : Buf) (delim : List Char) :
    strtok mem 0 (some 0) delim = strtok mem 0 none delim := rfl

/-- A non-empty list of lines comes from a first token and the lines after it. -/
theorem readLines_cons_inv (fuel : Nat) (mem mem2 : Buf) (save save2 : Nat) (t : Option Nat)
    (rest : List (Option Nat))
    (h : readLines (fuel + 1) mem save = .ok (mem2, save2, t :: rest)) :
    ∃ mem1 save1 tok, strtok mem save none [';', '\n'] = .ok (mem1, save1, some tok) ∧
      readLines fuel mem1 save1 = .ok (mem2, save2, rest) ∧ t = some tok := by
  rw [readLines] at h
  cases hs : strtok mem save none [';', '\n'] with
  | error e => rw [hs] at h; cases h
  | ok r =>
    obtain ⟨mem1, save1, token⟩ := r
    rw [hs] at h
    cases token with
    | none => simp at h
    | some tok =>
      simp only at h
      cases hr : readLines fuel mem1 save1 with
      | error e => rw [hr] at h; cases h
      | ok r2 =>
        obtain ⟨m3, s3, rest3⟩ := r2
        rw [hr] at h
        simp only [Except.ok.injEq, Prod.mk.injEq, List.cons.injEq] at h
        obtain ⟨h1, h2, h3, h4⟩ := h
        rw [h1, h2, h4] at hr
        exact ⟨mem1, save1, tok, rfl, hr, h3.symm⟩

/-- The scanner on a text given by its pieces, none of them the bare keyword
`uniform`: it does not fault and makes the calls of `textCalls`, one list per
segment; for a text without segments it returns a single empty list. -/
theorem scanText_pieces (lead : List Char) (ps : List Piece) (fin : List Char)
    (hlead : ∀ c ∈ lead, c ∈ [';', '\n']) (hps : ∀ p ∈ ps, p.ok ∧ ¬ bareUniform p.seg)
    (hfin : ∀ c ∈ fin, c ≠ NUL ∧ c ∉ [';', '\n']) (hfinb : ¬ bareUniform fin)
    (hlen : (lead ++ textOf ps ++ fin).length < 2 ^ 31) :
    scanText (some (lead ++ textOf ps ++ fin)) =
      .ok (if ps = [] ∧ fin = [] then [[]]
        else textCalls none (ps.map Piece.seg ++ (if fin = [] then [] else [fin]))) := by
  have hl : ∀ c ∈ lead, c ≠ NUL ∧ c ∈ [';', '\n'] :=
    fun c hc => ⟨sep_ne_NUL (hlead c hc), hlead c hc⟩
  by_cases hempty : ps = [] ∧ fin = []
  · rw [if_pos hempty]
    obtain ⟨h1, h2⟩ := hempty
    subst h1 h2
    have h := strtok_none [';', '\n'] [] lead [] 0 (some 0) rfl hl
    have h2b : strtok (lead ++ [NUL]) lead.length none [';', '\n']
        = .ok (lead ++ [NUL], lead.length, none) := by
      have := strtok_none [';', '\n'] lead [] [] lead.length none rfl (by simp)
      simpa using this
    have h3 : strtok (lead ++ [NUL]) lead.length none [' ', '(', '\n']
        = .ok (lead ++ [NUL], lead.length, none) := by
      have := strtok_none [' ', '(', '\n'] lead [] [] lead.length none rfl (by simp)
      simpa using this
    simp only [List.nil_append, List.length_nil, Nat.zero_add] at h
    unfold scanText textBuffer
    simp only [textOf, List.append_nil, h]
    rw [readLines]
    simp only [h2b, scanLines, scanLine, h3]
  · rw [if_neg hempty]
    have hnonempty : offsets lead.length ps ++
        (if fin = [] then [] else [some (lead.length + (textOf ps).length)]) ≠ [] := by
      intro h
      apply hempty
      cases ps with
      | nil =>
        refine ⟨rfl, ?_⟩
        by_contra hf
        simp [offsets, hf] at h
      | cons p ps => simp [offsets] at h
    obtain ⟨save1, hread⟩ := readLines_spec fin hfin ps (fun p hp => (hps p hp).1) [] lead
      ((lead ++ textOf ps ++ fin ++ [NUL]).length + 1 + 1) hlead
      (by
        have : ps.length ≤ (textOf ps).length := by
          clear hnonempty hempty hlen
          induction ps with
          | nil => simp
          | cons p ps ih =>
            have := ih (fun q hq => hps q (by simp [hq]))
            simp only [textOf, Piece.text, List.length_append, List.length_cons]
            omega
        simp only [List.length_append, List.length_singleton]
        omega)
    simp only [List.nil_append, List.length_nil, Nat.zero_add] at hread
    obtain ⟨t, rest, hlines⟩ := List.exists_cons_of_ne_nil hnonempty
    rw [hlines] at hread
    obtain ⟨mem1, s1, tok, hst, hrl, htok⟩ := readLines_cons_inv _ _ _ _ _ _ _ hread
    -- the loop over the pieces
    obtain ⟨M, save2, lt2, hscan, hlenM, hlt2⟩ :=
      scanLines_frame ps hps
        (by simp only [List.length_append] at hlen; omega) lead (fin ++ [NUL]) save1 none none
        trivial
    -- the last segment
    have hlast : ∃ st3,
        scanLines (if fin = [] then [] else [some (lead.length + (textOf ps).length)])
          ⟨M ++ (fin ++ [NUL]), save2, lt2⟩
        = .ok (st3, textCalls (textLast none (ps.map Piece.seg))
            (if fin = [] then [] else [fin])) := by
      by_cases hf : fin = []
      · simp only [if_pos hf]
        exact ⟨⟨M ++ (fin ++ [NUL]), save2, lt2⟩, rfl⟩
      · simp only [if_neg hf]
        obtain ⟨S1, save3, lt3, hrun, _, _⟩ :=
          scanLine_frame M fin [] save2 lt2 _ (fun h => (hfin _ h).1 rfl) hfinb
            (by simp only [List.length_append] at hlen; omega) hlt2
        have e1 : lead.length + (textOf ps).length = M.length := by
          rw [hlenM, List.length_append, length_cutOf]
        have e2 : M ++ (fin ++ [NUL]) = M ++ fin ++ [NUL] := by simp
        refine ⟨⟨M ++ S1 ++ NUL :: [], save3, lt3⟩, ?_⟩
        rw [scanLines, e1, e2, hrun]
        rfl
    obtain ⟨st3, hscan3⟩ := hlast
    unfold scanText textBuffer
    simp only [strtok_first]
    rw [hst]
    simp only
    rw [hrl]
    simp only
    rw [← htok, ← hlines, scanLines_append]
    have e3 : lead ++ cutOf ps ++ fin ++ [NUL] = lead ++ cutOf ps ++ (fin ++ [NUL]) := by simp
    rw [e3, hscan]
    simp only
    rw [hscan3, textCalls_append]

/-- The scanner on a text without terminator, shorter than 2^31 characters, none of
whose segments is the bare keyword `uniform`: it does not fault and makes the calls
of `textCalls`, one list per segment; for a text without segments it returns a single
empty list. -/
theorem scanText_spec (T : List Char) (hT : NUL ∉ T) (hlen : T.length < 2 ^ 31)
    (hbare : ∀ s ∈ segments T, ¬ bareUniform s) :
    scanText (some T) =
      .ok (if segments T = [] then [[]] else textCalls none (segments T)) := by
  obtain ⟨lead, ps, fin, hTeq, hlead, hps, hfin⟩ := exists_pieces T hT
  subst hTeq
  have hseg := segments_pieces fin hfin ps hps lead hlead
  rw [hseg] at hbare ⊢
  have hfinb : ¬ bareUniform fin := by
    by_cases hf : fin = []
    · subst hf
      unfold bareUniform
      decide
    · exact hbare fin (by simp [hf])
  rw [scanText_pieces lead ps fin hlead
    (fun p hp => ⟨hps p hp, hbare p.seg (by simp; exact Or.inl ⟨p, hp, rfl⟩)⟩) hfin hfinb hlen]
  by_cases hs : ps.map Piece.seg ++ (if fin = [] then [] else [fin]) = []
  · have hempty : ps = [] ∧ fin = [] := by
      obtain ⟨h1, h2⟩ := List.append_eq_nil.mp hs
      refine ⟨List.map_eq_nil_iff.mp h1, ?_⟩
      by_contra hf
      rw [if_neg hf] at h2
      cases h2
    rw [if_pos hempty, if_pos hs]
  · have hempty : ¬ (ps = [] ∧ fin = []) := by
      rintro ⟨h1, h2⟩
      apply hs
      rw [h1, h2]
      rfl
    rw [if_neg hempty, if_neg hs]



/-! ## Declarations with whitespace around the names -/

theorem declNames_type (ty : List Char) (hty : ',' ∉ ty) (w : Char)
    (hw : w = ' ' ∨ w = '\t') (X : List Char) :
    ∀ cur, declNames cur (ty ++ w :: X) = declNames [] X := by
  induction ty with
  | nil =>
    intro cur
    have hwc : w ≠ ',' := by rcases hw with h | h <;> subst h <;> decide
    rw [List.nil_append, declNames, if_neg hwc, if_pos hw]
  | cons c ty ih =>
    intro cur
    have hc : c ≠ ',' := fun h => hty (by simp [h])
    have ih2 := ih (fun h => hty (by simp [h]))
    rw [List.cons_append, declNames, if_neg hc]
    by_cases hb : c = ' ' ∨ c = '\t'
    · rw [if_pos hb, ih2]
    · rw [if_neg hb, ih2]

theorem declNames_blanks (ws : List Char) (hws : ∀ c ∈ ws, c = ' ' ∨ c = '\t')
    (X : List Char) :
    ∀ cur, declNames cur (ws ++ X) = declNames (if ws = [] then cur else []) X := by
  induction ws with
  | nil => intro cur; simp
  | cons c ws ih =>
    intro cur
    have hb := hws c (by simp)
    have hc : c ≠ ',' := by rcases hb with h | h <;> subst h <;> decide
    rw [List.cons_append, declNames, if_neg hc, if_pos hb, ih (fun d hd => hws d (by simp [hd]))]
    simp

theorem declNames_name (n : List Char) (hn : ∀ c ∈ n, c ≠ ' ' ∧ c ≠ '\t' ∧ c ≠ ',')
    (X : List Char) : ∀ cur, declNames cur (n ++ X) = declNames (cur ++ n) X := by
  induction n with
  | nil => intro cur; simp
  | cons c n ih =>
    intro cur
    obtain ⟨h1, h2, h3⟩ := hn c (by simp)
    have hb : ¬ (c = ' ' ∨ c = '\t') := fun h => h.elim h1 h2
    rw [List.cons_append, declNames, if_neg h3, if_neg hb,
      ih (fun d hd => hn d (by simp [hd]))]
    simp

theorem declNames_declarator (d : Declarator) (hd : d.ok) (X : List Char) :
    declNames [] (d.text ++ X) = declNames d.registered X := by
  obtain ⟨hb, ha, hn⟩ := hd
  have e : d.text ++ X = d.before ++ (d.name ++ (d.after ++ X)) := by
    simp [Declarator.text]
  rw [e, declNames_blanks d.before hb, declNames_name d.name hn, declNames_blanks d.after ha]
  unfold Declarator.registered
  by_cases h1 : d.before = [] <;> by_cases h2 : d.after = [] <;> simp [h1, h2]

/-- The names of a comma separated list of declarators. -/
theorem declNames_renderDecls :
    ∀ (ds : List Declarator), ds ≠ [] → (∀ x ∈ ds, x.ok) →
      declNames [] (renderDecls ds) = ds.map Declarator.registered := by
  intro ds
  induction ds with
  | nil => intro h; exact absurd rfl h
  | cons d ds ih =>
    intro _ hok
    cases ds with
    | nil =>
      have := declNames_declarator d (hok d (by simp)) []
      rw [List.append_nil] at this
      rw [renderDecls, this, declNames]
      rfl
    | cons e ds =>
      have h1 := declNames_declarator d (hok d (by simp)) (',' :: renderDecls (e :: ds))
      have h2 := ih (by simp) (fun x hx => hok x (by simp [hx]))
      rw [renderDecls, h1, declNames, if_pos rfl, h2]
      rfl

/-! ## The names of a declaration, piece by piece -/

theorem afterLastBlank_of_no_blank (p : List Char)
    (h : p.any (fun x => decide (x = ' ' ∨ x = '\t')) = false) : afterLastBlank p = p := by
  cases p with
  | nil => rfl
  | cons c p =>
    simp only [List.any_cons, Bool.or_eq_false_iff, decide_eq_false_iff_not] at h
    rw [afterLastBlank, h.2]
    simp only [Bool.false_eq_true, if_false, if_neg h.1]

/-- The names of a declaration text are, piece by piece, the text after the last
space or tab of the piece; `cur` is prepended to a first piece that has neither. -/
theorem declNames_pieces (R : List Char) :
    ∀ cur, ∃ p ps, commaPieces R = p :: ps ∧
      declNames cur R
        = (if p.any (fun x => decide (x = ' ' ∨ x = '\t')) then afterLastBlank p else cur ++ p)
          :: ps.map afterLastBlank := by
  induction R with
  | nil =>
    intro cur
    exact ⟨[], [], rfl, by simp [declNames]⟩
  | cons c R ih =>
    intro cur
    by_cases hc : c = ','
    · obtain ⟨p, ps, hp, hd⟩ := ih []
      refine ⟨[], commaPieces R, by rw [commaPieces, if_pos hc], ?_⟩
      rw [declNames, if_pos hc, hd, hp]
      simp only [List.any_nil, Bool.false_eq_true, if_false, List.append_nil, List.map_cons,
        List.nil_append]
      by_cases hb : p.any (fun x => decide (x = ' ' ∨ x = '\t')) = true
      · rw [if_pos hb]
      · rw [if_neg hb, afterLastBlank_of_no_blank p (by simpa using hb)]
    · by_cases hb : c = ' ' ∨ c = '\t'
      · obtain ⟨p, ps, hp, hd⟩ := ih []
        refine ⟨c :: p, ps, by rw [commaPieces, if_neg hc, hp], ?_⟩
        rw [declNames, if_neg hc, if_pos hb, hd]
        have hany : (c :: p).any (fun x => decide (x = ' ' ∨ x = '\t')) = true := by
          simp only [List.any_cons, Bool.or_eq_true, decide_eq_true_eq]
          exact Or.inl hb
        rw [if_pos hany, afterLastBlank]
        by_cases hp2 : p.any (fun x => decide (x = ' ' ∨ x = '\t')) = true
        · rw [if_pos hp2, if_pos hp2]
        · rw [if_neg hp2, if_neg hp2, if_pos hb, List.nil_append]
      · obtain ⟨p, ps, hp, hd⟩ := ih (cur ++ [c])
        refine ⟨c :: p, ps, by rw [commaPieces, if_neg hc, hp], ?_⟩
        rw [declNames, if_neg hc, if_neg hb, hd]
        by_cases hp2 : p.any (fun x => decide (x = ' ' ∨ x = '\t')) = true
        · have hany : (c :: p).any (fun x => decide (x = ' ' ∨ x = '\t')) = true := by
            simp only [List.any_cons, Bool.or_eq_true]
            exact Or.inr hp2
          rw [if_pos hp2, if_pos hany, afterLastBlank, if_pos hp2]
        · have hany : ¬ (c :: p).any (fun x => decide (x = ' ' ∨ x = '\t')) = true := by
            simp only [List.any_cons, Bool.or_eq_true, decide_eq_true_eq]
            rintro (h | h)
            · exact hb h
            · exact hp2 h
          rw [if_neg hp2, if_neg hany]
          simp

/-- The names of a declaration text: for each comma separated piece, the text after
its last space or tab. -/
theorem declNames_eq_pieces (R : List Char) :
    declNames [] R = (commaPieces R).map afterLastBlank := by
  obtain ⟨p, ps, hp, hd⟩ := declNames_pieces R []
  rw [hd, hp, List.map_cons, List.nil_append]
  by_cases hb : p.any (fun x => decide (x = ' ' ∨ x = '\t')) = true
  · rw [if_pos hb]
  · rw [if_neg hb, afterLastBlank_of_no_blank p (by simpa using hb)]

theorem textCalls_get (S : List Char) :
    ∀ (segs : List (List Char)) (k : Nat) (prev : Option (List Char)), segs[k]? = some S →
      (textCalls prev segs)[k]? = some (segmentCalls (textLast prev (segs.take k)) S).1 := by
  intro segs
  induction segs with
  | nil => intro k prev hk; simp at hk
  | cons S0 segs ih =>
    intro k prev hk
    cases k with
    | zero =>
      simp only [List.getElem?_cons_zero, Option.some.injEq] at hk
      subst hk
      simp [textCalls, textLast]
    | succ k =>
      simp only [List.getElem?_cons_succ] at hk
      simp only [textCalls, List.getElem?_cons_succ, List.take_succ_cons, textLast]
      exact ih k _ hk

/-! ## The calls for the three kinds of segment -/

/-- A `uniform` segment with text `R` after the keyword and its delimiter: the names
of `R` are registered, and `lastToken` is left alone. -/
theorem segmentCalls_uniform (prev : Option (List Char)) (blanks R : List Char) (d : Char)
    (hb : ∀ c ∈ blanks, c ∈ [' ', '(', '\n']) (hd : d ∈ [' ', '(', '\n']) :
    segmentCalls prev (blanks ++ "uniform".toList ++ d :: R)
      = ((declNames [] R).map Call.addUniform, prev) := by
  rw [segmentCalls_parts prev blanks "uniform".toList (d :: R) hb (by decide)
    (Or.inr ⟨d, R, rfl, hd⟩) (Or.inl (by decide)), if_pos rfl]
  rfl

/-- A `layout` segment with text `R` after the keyword and its delimiter, where `R`
has a space delimited token: the last such token is registered as an attribute. -/
theorem segmentCalls_layout (prev : Option (List Char)) (blanks R name : List Char) (d : Char)
    (hb : ∀ c ∈ blanks, c ∈ [' ', '(', '\n']) (hd : d ∈ [' ', '(', '\n'])
    (hR : (runsFrom [' '] [] R).getLast? = some name) :
    segmentCalls prev (blanks ++ "layout".toList ++ d :: R)
      = ([Call.addAttribute name], some name) := by
  rw [segmentCalls_parts prev blanks "layout".toList (d :: R) hb (by decide)
    (Or.inr ⟨d, R, rfl, hd⟩) (Or.inl (by decide)), if_neg (by decide), if_pos rfl]
  simp only [List.drop_succ_cons, List.drop_zero, lastWordOr, hR]

/-- A segment whose first token is neither `uniform` nor `layout`: nothing is
registered, and `lastToken` is left alone. -/
theorem segmentCalls_other (prev : Option (List Char)) (S : List Char)
    (h1 : (S.dropWhile (fun c => decide (c ∈ [' ', '(', '\n']))).takeWhile
      (fun c => decide (c ∉ [' ', '(', '\n'])) ≠ "uniform".toList)
    (h2 : (S.dropWhile (fun c => decide (c ∈ [' ', '(', '\n']))).takeWhile
      (fun c => decide (c ∉ [' ', '(', '\n'])) ≠ "layout".toList) :
    segmentCalls prev S = ([], prev) := by
  unfold segmentCalls
  simp only [if_neg h1, if_neg h2]

theorem textCalls_other :
    ∀ (segs : List (List Char)) (prev : Option (List Char)),
      (∀ S ∈ segs, segmentCalls prev S = ([], prev)) →
      (textCalls prev segs).flatten = [] := by
  intro segs
  induction segs with
  | nil => intro prev _; rfl
  | cons S segs ih =>
    intro prev h
    have hS := h S (by simp)
    rw [textCalls, hS]
    simp only [List.flatten_cons, List.nil_append]
    exact ih prev (fun S1 h1 => h S1 (by simp [h1]))



/-! ## The iteration budget is never exhausted -/

theorem strspn_le (accept : List Char) :
    ∀ (s : List Char) (a : Nat), strspn accept s = .ok a → a < s.length := by
  intro s
  induction s with
  | nil => intro a h; simp [strspn] at h
  | cons c cs ih =>
    intro a h
    rw [strspn] at h
    by_cases hc : c ≠ NUL ∧ c ∈ accept
    · rw [if_pos hc] at h
      cases hs : strspn accept cs with
      | error e => rw [hs] at h; cases h
      | ok n =>
        rw [hs] at h
        cases h
        have := ih n hs
        simp only [List.length_cons]
        omega
    · rw [if_neg hc] at h
      cases h
      simp

theorem strspn_fuel (accept : List Char) :
    ∀ (s : List Char), strspn accept s ≠ .error .fuel := by
  intro s
  induction s with
  | nil => simp [strspn]
  | cons c cs ih =>
    rw [strspn]
    by_cases hc : c ≠ NUL ∧ c ∈ accept
    · rw [if_pos hc]
      cases hs : strspn accept cs with
      | error e =>
        intro h
        cases h
        exact ih hs
      | ok n => simp
    · rw [if_neg hc]
      simp

theorem strcspn_fuel (reject : List Char) :
    ∀ (s : List Char), strcspn reject s ≠ .error .fuel := by
  intro s
  induction s with
  | nil => simp [strcspn]
  | cons c cs ih =>
    rw [strcspn]
    by_cases hc : c = NUL ∨ c ∈ reject
    · rw [if_pos hc]
      simp
    · rw [if_neg hc]
      cases hs : strcspn reject cs with
      | error e =>
        intro h
        cases h
        exact ih hs
      | ok n => simp

theorem cstr_fuel : ∀ (s : List Char), cstr s ≠ .error .fuel := by
  intro s
  induction s with
  | nil => simp [cstr]
  | cons c cs ih =>
    rw [cstr]
    by_cases hc : c = NUL
    · rw [if_pos hc]
      simp
    · rw [if_neg hc]
      cases hs : cstr cs with
      | error e =>
        intro h
        cases h
        exact ih hs
      | ok n => simp

theorem strcmp_fuel : ∀ (s lit : List Char), strcmp s lit ≠ .error .fuel := by
  intro s
  induction s with
  | nil => intro lit; simp [strcmp]
  | cons c cs ih =>
    intro lit
    cases lit with
    | nil => simp [strcmp]
    | cons d ds =>
      rw [strcmp]
      by_cases hc : c = d
      · rw [if_pos hc]
        exact ih ds
      · rw [if_neg hc]
        simp

/-- What a call of `strtok` can do: fail, though not for lack of budget, find no
token, or find a token and move its internal pointer forward, inside the buffer,
whose length it keeps. -/
theorem strtok_cases (mem : Buf) (save : Nat) (s : Option Nat) (delim : List Char) :
    (∃ e, strtok mem save s delim = .error e ∧ e ≠ .fuel) ∨
    (∃ save1, strtok mem save s delim = .ok (mem, save1, none) ∧ save1 < mem.length) ∨
    (∃ mem1 save1 t, strtok mem save s delim = .ok (mem1, save1, some t) ∧
      s.getD save < save1 ∧ save1 ≤ mem.length ∧ mem1.length = mem.length) := by
  unfold strtok
  dsimp only
  cases hs : strspn delim (mem.drop (s.getD save)) with
  | error e =>
    left
    exact ⟨e, rfl, fun h => strspn_fuel _ _ (h ▸ hs)⟩
  | ok a =>
    have ha := strspn_le _ _ _ hs
    simp only [List.length_drop] at ha
    dsimp only
    cases hc : strcspn delim (mem.drop (s.getD save + a)) with
    | error e =>
      left
      exact ⟨e, rfl, fun h => strcspn_fuel _ _ (h ▸ hc)⟩
    | ok n =>
      dsimp only
      by_cases hn : n = 0
      · right; left
        rw [if_pos hn]
        exact ⟨s.getD save + a, rfl, by omega⟩
      · rw [if_neg hn]
        cases hg : mem[s.getD save + a + n]? with
        | none =>
          left
          exact ⟨.outOfBounds, rfl, by simp⟩
        | some c =>
          have hlt : s.getD save + a + n < mem.length := by
            by_contra hge
            rw [List.getElem?_eq_none (by omega)] at hg
            cases hg
          right; right
          dsimp only
          by_cases hcn : c = NUL
          · rw [if_pos hcn]
            exact ⟨mem, _, _, rfl, by omega, by omega, rfl⟩
          · rw [if_neg hcn]
            exact ⟨_, _, _, rfl, by omega, by omega, by simp⟩

theorem readLines_fuel :
    ∀ (fuel : Nat) (mem : Buf) (save : Nat), save ≤ mem.length → mem.length < save + fuel →
      readLines fuel mem save ≠ .error .fuel := by
  intro fuel
  induction fuel with
  | zero =>
    intro mem save h1 h2
    omega
  | succ fuel ih =>
    intro mem save hle h
    rw [readLines]
    rcases strtok_cases mem save none [';', '\n'] with
      ⟨e, h1, he⟩ | ⟨s1, h1, _⟩ | ⟨m1, s1, t, h1, hlt, hle1, hlen⟩
    · rw [h1]
      intro h2
      cases h2
      exact he rfl
    · rw [h1]
      simp
    · rw [h1]
      simp only [Option.getD_none] at hlt
      have := ih m1 s1 (by omega) (by omega)
      dsimp only
      cases hr : readLines fuel m1 s1 with
      | error e =>
        intro he
        injection he with he
        exact this (he ▸ hr)
      | ok r =>
        obtain ⟨m2, s2, rest⟩ := r
        intro he
        cases he

theorem layoutLoop_fuel :
    ∀ (fuel : Nat) (mem : Buf) (save : Nat) (lt : Option Nat), save ≤ mem.length →
      mem.length < save + fuel → layoutLoop fuel mem save lt ≠ .error .fuel := by
  intro fuel
  induction fuel with
  | zero =>
    intro mem save lt h1 h2
    omega
  | succ fuel ih =>
    intro mem save lt hle h
    rw [layoutLoop]
    rcases strtok_cases mem save none [' '] with
      ⟨e, h1, he⟩ | ⟨s1, h1, _⟩ | ⟨m1, s1, t, h1, hlt, hle1, hlen⟩
    · rw [h1]
      intro h2
      cases h2
      exact he rfl
    · rw [h1]
      simp
    · rw [h1]
      simp only [Option.getD_none] at hlt
      exact ih m1 s1 (some t) (by omega) (by omega)

theorem uniformLoop_fuel (lineEnding : Nat) :
    ∀ (n i : Nat) (mem : Buf) (last : Int),
      uniformLoop lineEnding n i mem last ≠ .error .fuel := by
  intro n
  induction n with
  | zero => intro i mem last; simp [uniformLoop]
  | succ n ih =>
    intro i mem last
    rw [uniformLoop]
    cases hg : mem[lineEnding + i]? with
    | none => simp
    | some c =>
      dsimp only
      by_cases hc : c = ','
      · rw [if_pos hc]
        cases hn : cstr ((mem.set (lineEnding + i) NUL).drop (lineEnding + (last + 1).toNat)) with
        | error e =>
          intro h
          cases h
          exact cstr_fuel _ hn
        | ok name =>
          dsimp only
          cases hr : uniformLoop lineEnding n (i + 1) (mem.set (lineEnding + i) NUL) (i : Int) with
          | error e =>
            intro h
            cases h
            exact ih _ _ _ hr
          | ok r => simp
      · rw [if_neg hc]
        by_cases hb : c = ' ' ∨ c = '\t'
        · rw [if_pos hb]
          exact ih _ _ _
        · rw [if_neg hb]
          exact ih _ _ _

theorem scanLine_fuel (line : Option Nat) (st : Scan) : scanLine line st ≠ .error .fuel := by
  unfold scanLine
  rcases strtok_cases st.mem st.save line [' ', '(', '\n'] with
    ⟨e, h1, he⟩ | ⟨s1, h1, _⟩ | ⟨m1, s1, t, h1, hlt, hle1, hlen⟩
  · rw [h1]
    intro h2
    cases h2
    exact he rfl
  · rw [h1]
    simp
  · rw [h1]
    dsimp only
    cases hu : strcmp (m1.drop t) "uniform".toList with
    | error e =>
      intro h
      cases h
      exact strcmp_fuel _ _ hu
    | ok b =>
      cases b with
      | true =>
        dsimp only
        cases line with
        | none => simp
        | some l =>
          dsimp only
          cases hl1 : strlen (m1.drop l) with
          | error e =>
            intro h
            cases h
            exact strcspn_fuel _ _ hl1
          | ok len =>
            dsimp only
            cases hl2 : strlen (m1.drop (l + len + 1)) with
            | error e =>
              intro h
              cases h
              exact strcspn_fuel _ _ hl2
            | ok len2 =>
              dsimp only
              cases hloop : uniformLoop (l + len + 1) (toInt32 len2).toNat 0 m1 (-1) with
              | error e =>
                intro h
                cases h
                exact uniformLoop_fuel _ _ _ _ _ hloop
              | ok r =>
                obtain ⟨m2, last, calls⟩ := r
                dsimp only
                cases hn : cstr (m2.drop (l + len + 1 + (last + 1).toNat)) with
                | error e =>
                  intro h
                  cases h
                  exact cstr_fuel _ hn
                | ok name => simp
      | false =>
        dsimp only
        cases hla : strcmp (m1.drop t) "layout".toList with
        | error e =>
          intro h
          cases h
          exact strcmp_fuel _ _ hla
        | ok b =>
          cases b with
          | false => simp
          | true =>
            dsimp only
            cases hloop : layoutLoop (m1.length + 1) m1 s1 st.lastToken with
            | error e =>
              intro h
              cases h
              exact layoutLoop_fuel _ _ _ _ (by omega) (by omega) hloop
            | ok r =>
              obtain ⟨m2, s2, lt2⟩ := r
              cases lt2 with
              | none => simp
              | some p =>
                dsimp only
                cases hn : cstr (m2.drop p) with
                | error e =>
                  intro h
                  cases h
                  exact cstr_fuel _ hn
                | ok name => simp

theorem scanLines_fuel :
    ∀ (lines : List (Option Nat)) (st : Scan), scanLines lines st ≠ .error .fuel := by
  intro lines
  induction lines with
  | nil => intro st; simp [scanLines]
  | cons line lines ih =>
    intro st
    rw [scanLines]
    cases hl : scanLine line st with
    | error e =>
      intro h
      cases h
      exact scanLine_fuel _ _ hl
    | ok r =>
      obtain ⟨st1, calls⟩ := r
      dsimp only
      cases hr : scanLines lines st1 with
      | error e =>
        intro h
        cases h
        exact ih _ hr
      | ok r2 => simp

/-- The scanner never stops for lack of iteration budget: on every text it returns
its calls or runs into undefined behaviour of the C++ code. -/
theorem scanText_fuel (fileText : Option (List Char)) : scanText fileText ≠ .error .fuel := by
  unfold scanText
  cases fileText with
  | none => simp
  | some text =>
    dsimp only
    rcases strtok_cases (textBuffer text) 0 (some 0) [';', '\n'] with
      ⟨e, h1, he⟩ | ⟨s1, h1, hs1⟩ | ⟨m1, s1, t, h1, hlt, hle1, hlen⟩
    · rw [h1]
      intro h2
      cases h2
      exact he rfl
    · rw [h1]
      dsimp only
      cases hr : readLines ((textBuffer text).length + 1) (textBuffer text) s1 with
      | error e =>
        intro h
        cases h
        exact readLines_fuel _ _ _ (by omega) (by omega) hr
      | ok r =>
        obtain ⟨m2, s2, rest⟩ := r
        dsimp only
        cases hsc : scanLines (none :: rest) ⟨m2, s2, none⟩ with
        | error e =>
          intro h
          cases h
          exact scanLines_fuel _ _ hsc
        | ok r2 => simp
    · rw [h1]
      dsimp only
      cases hr : readLines ((textBuffer text).length + 1) m1 s1 with
      | error e =>
        intro h
        cases h
        exact readLines_fuel _ _ _ (by omega) (by omega) hr
      | ok r =>
        obtain ⟨m2, s2, rest⟩ := r
        dsimp only
        cases hsc : scanLines (some t :: rest) ⟨m2, s2, none⟩ with
        | error e =>
          intro h
          cases h
          exact scanLines_fuel _ _ hsc
        | ok r2 => simp



/-! ## The scanner on texts without a bare keyword segment -/

/-- On a text none of whose segments is the bare keyword `uniform`, the segment
number `k`, a `uniform` segment with text `R` after the keyword and its delimiter,
gets exactly one call `addUniform` per comma separated piece of `R`, in order, with
the text after the last space or tab of the piece. -/
theorem scanText_uniform_segment (T : List Char) (k : Nat) (blanks R : List Char) (d : Char)
    (hT : NUL ∉ T) (hlen : T.length < 2 ^ 31) (hbare : ∀ s ∈ segments T, ¬ bareUniform s)
    (hseg : (segments T)[k]? = some (blanks ++ "uniform".toList ++ d :: R))
    (hb : ∀ c ∈ blanks, c = ' ' ∨ c = '(') (hd : d = ' ' ∨ d = '(') :
    ∃ cs, scanText (some T) = .ok cs ∧
      cs[k]? = some ((declNames [] R).map Call.addUniform) ∧
      cs[k]? = some ((commaPieces R).map fun p => Call.addUniform (afterLastBlank p)) := by
  have key : ∃ cs, scanText (some T) = .ok cs ∧
      cs[k]? = some ((declNames [] R).map Call.addUniform) := by
    have hne : segments T ≠ [] := by
      intro h
      rw [h] at hseg
      simp at hseg
    refine ⟨textCalls none (segments T), ?_, ?_⟩
    · rw [scanText_spec T hT hlen hbare, if_neg hne]
    · rw [textCalls_get _ _ k none hseg, segmentCalls_uniform _ blanks R d
        (fun c hc => by rcases hb c hc with h | h <;> simp [h])
        (by rcases hd with h | h <;> simp [h])]
  obtain ⟨cs, hrun, hk⟩ := key
  refine ⟨cs, hrun, hk, ?_⟩
  rw [hk, declNames_eq_pieces, List.map_map]
  rfl

/-- On a text none of whose segments is the bare keyword `uniform`, the segment
number `k`, a `layout` segment whose text after the keyword and its delimiter has the
last space delimited token `name`, gets exactly one call, `addAttribute name`. -/
theorem scanText_layout_segment (T : List Char) (k : Nat) (blanks R name : List Char)
    (d : Char) (hT : NUL ∉ T) (hlen : T.length < 2 ^ 31)
    (hbare : ∀ s ∈ segments T, ¬ bareUniform s)
    (hseg : (segments T)[k]? = some (blanks ++ "layout".toList ++ d :: R))
    (hb : ∀ c ∈ blanks, c = ' ' ∨ c = '(') (hd : d = ' ' ∨ d = '(')
    (hR : (runsFrom [' '] [] R).getLast? = some name) :
    ∃ cs, scanText (some T) = .ok cs ∧ cs[k]? = some [Call.addAttribute name] := by
  have hne : segments T ≠ [] := by
    intro h
    rw [h] at hseg
    simp at hseg
  refine ⟨textCalls none (segments T), ?_, ?_⟩
  · rw [scanText_spec T hT hlen hbare, if_neg hne]
  · rw [textCalls_get _ _ k none hseg, segmentCalls_layout _ blanks R name d
      (fun c hc => by rcases hb c hc with h | h <;> simp [h])
      (by rcases hd with h | h <;> simp [h]) hR]

/-- On a text none of whose segments starts with the token `uniform` or `layout`,
the scanner makes no call at all. -/
theorem scanText_no_keyword (T : List Char) (hT : NUL ∉ T) (hlen : T.length < 2 ^ 31)
    (hseg : ∀ S ∈ segments T,
      (S.dropWhile (fun c => decide (c ∈ [' ', '(', '\n']))).takeWhile
          (fun c => decide (c ∉ [' ', '(', '\n'])) ≠ "uniform".toList ∧
      (S.dropWhile (fun c => decide (c ∈ [' ', '(', '\n']))).takeWhile
          (fun c => decide (c ∉ [' ', '(', '\n'])) ≠ "layout".toList) :
    ∃ cs, scanText (some T) = .ok cs ∧ cs.flatten = [] := by
  have hbare : ∀ s ∈ segments T, ¬ bareUniform s := by
    intro s hs hb
    apply (hseg s hs).1
    unfold bareUniform at hb
    rw [hb]
    decide
  refine ⟨_, scanText_spec T hT hlen hbare, ?_⟩
  by_cases hne : segments T = []
  · rw [if_pos hne]
    rfl
  · rw [if_neg hne]
    exact textCalls_other _ none
      (fun S hS => segmentCalls_other none S (hseg S hS).1 (hseg S hS).2)

/-- What the loop of lines 103 to 112 registers for a declaration, in general: in a
source text without terminator, shorter than 2^31 characters, none of whose segments
is the bare keyword `uniform`, let the segment number `k` be a declaration
`uniform <type> <name>[, name2, ...]` whose names may have spaces and tabs before and
after them. Then the scanner does not fault, and the calls for that segment are one
`addUniform` per name, in order: with the bare name when nothing follows the name (the
spaces and tabs before it are dropped), and with the empty text when spaces or tabs
follow the name, so that such a uniform is lost. -/
theorem uniform_names_trimmed_before_only (T : List Char) (k : Nat) (blanks ty : List Char)
    (d w : Char) (ds : List Declarator) (hT : NUL ∉ T) (hlen : T.length < 2 ^ 31)
    (hbare : ∀ s ∈ segments T, ¬ bareUniform s)
    (hseg : (segments T)[k]?
      = some (blanks ++ "uniform".toList ++ d :: (ty ++ w :: renderDecls ds)))
    (hblanks : ∀ c ∈ blanks, c = ' ' ∨ c = '(') (hd : d = ' ' ∨ d = '(')
    (hty : ',' ∉ ty) (hw : w = ' ' ∨ w = '\t') (hds : ds ≠ []) (hok : ∀ x ∈ ds, x.ok) :
    ∃ cs, scanText (some T) = .ok cs ∧
      cs[k]? = some (ds.map fun x => Call.addUniform x.registered) := by
  obtain ⟨cs, hrun, hk, _⟩ := scanText_uniform_segment T k blanks (ty ++ w :: renderDecls ds) d
    hT hlen hbare hseg hblanks hd
  refine ⟨cs, hrun, ?_⟩
  rw [hk, declNames_type ty hty w hw, declNames_renderDecls ds hds hok]
  simp

/-- The hypotheses of `uniform_names_trimmed_before_only` hold on the text
`layout(location = 0) in vec3 p;\nuniform float  a,\tb ;`: its second segment
registers `a`, which has a space before it, and the empty name for `b`, which has a
space after it. -/
theorem uniform_names_trimmed_before_only_witness :
    NUL ∉ "layout(location = 0) in vec3 p;\nuniform float  a,\tb ;".toList ∧
    (∀ s ∈ segments "layout(location = 0) in vec3 p;\nuniform float  a,\tb ;".toList,
      ¬ bareUniform s) ∧
    (segments "layout(location = 0) in vec3 p;\nuniform float  a,\tb ;".toList)[1]?
      = some ([] ++ "uniform".toList ++ ' ' :: ("float".toList ++ ' ' ::
          renderDecls [⟨[' '], ['a'], []⟩, ⟨['\t'], ['b'], [' ']⟩])) ∧
    ∃ cs, scanText (some "layout(location = 0) in vec3 p;\nuniform float  a,\tb ;".toList)
        = .ok cs ∧
      cs[1]? = some [Call.addUniform ['a'], Call.addUniform []] :=
  ⟨by decide, by decide, by decide,
    uniform_names_trimmed_before_only
      "layout(location = 0) in vec3 p;\nuniform float  a,\tb ;".toList 1 [] "float".toList
      ' ' ' ' [⟨[' '], ['a'], []⟩, ⟨['\t'], ['b'], [' ']⟩]
      (by decide) (by decide) (by decide) (by decide) (by decide) (by decide) (by decide)
      (by decide) (by decide) (by decide)⟩



/-! ## The claims -/

/-- C1, evaluated where the code departs from it. In the source text
`uniform\nuniform float a, b;` the second segment is `uniform float a, b`, whose
remaining text `float a, b` has the two comma separated pieces ending in `a` and `b`.
While handling the first segment (the bare keyword) the scanner reads the second
one, registers `a` and `b` from there and overwrites its comma; when the second
segment is reached only `a` is registered for it. -/
theorem uniform_names_after_bare_keyword :
    scanText (some "uniform\nuniform float a, b;".toList)
      = .ok [[.addUniform "a".toList, .addUniform "b".toList], [.addUniform "a".toList]] := by
  decide

/-- C2, evaluated where the code departs from it. In the source text
`uniform\nlayout(location = 0, index = 1) out vec4 color;` the last space delimited
token of the `layout` segment is `color`; the bare `uniform` segment before it makes
the scanner overwrite the comma of the `layout` segment, and the attribute that is
registered for it is `0`. -/
theorem layout_name_after_bare_keyword :
    scanText (some "uniform\nlayout(location = 0, index = 1) out vec4 color;".toList)
      = .ok [[.addUniform "0".toList, .addUniform "color".toList],
             [.addAttribute "0".toList]] := by
  decide

/-- C3, the claim as stated fails: with a driver that reports the inactive uniform
`a` and every attribute as -1, the registered name `a` and the name `n` that was
never registered yield the same value from `getUniform` and from `getAttribute`. -/
theorem not_found_equals_unbound :
    sampleDriver.glGetUniformLocation 1 "a".toList < 0 ∧
    sampleDriver.glGetAttribLocation 1 "a".toList < 0 ∧
    (sampleShader.calls sampleDriver [.addUniform "a".toList, .addAttribute "a".toList]).getUniform
        "n".toList
      = (sampleShader.calls sampleDriver
          [.addUniform "a".toList, .addAttribute "a".toList]).getUniform "a".toList ∧
    (sampleShader.calls sampleDriver
        [.addUniform "a".toList, .addAttribute "a".toList]).getAttribute "n".toList
      = (sampleShader.calls sampleDriver
          [.addUniform "a".toList, .addAttribute "a".toList]).getAttribute "a".toList := by
  decide

/-- C3 as amended: for every table state reached from an object by a sequence of
calls, every name `n` that is not in the table and is not registered by the sequence,
and every name `m` the sequence registers while the driver reports a negative
location for it: the lookup of `n` returns the sentinel -1, the lookup of `m` returns
the negative location the driver reported, and the two values differ exactly when
that location is not -1. This holds for `getUniform` and for `getAttribute`. -/
theorem not_found_vs_unbound (drv : Driver) (self : Shader) (cs : List Call)
    (n m : List Char) (hn : NUL ∉ n) (hm : NUL ∉ m) :
    (mapFind self.uniforms n = none → Call.addUniform n ∉ cs → Call.addUniform m ∈ cs →
      drv.glGetUniformLocation self.pid m < 0 →
        (self.calls drv cs).getUniform n = -1 ∧
        (self.calls drv cs).getUniform m = drv.glGetUniformLocation self.pid m ∧
        ((self.calls drv cs).getUniform n ≠ (self.calls drv cs).getUniform m ↔
          drv.glGetUniformLocation self.pid m ≠ -1)) ∧
    (mapFind self.attributes n = none → Call.addAttribute n ∉ cs → Call.addAttribute m ∈ cs →
      drv.glGetAttribLocation self.pid m < 0 →
        (self.calls drv cs).getAttribute n = -1 ∧
        (self.calls drv cs).getAttribute m = drv.glGetAttribLocation self.pid m ∧
        ((self.calls drv cs).getAttribute n ≠ (self.calls drv cs).getAttribute m ↔
          drv.glGetAttribLocation self.pid m ≠ -1)) := by
  have cn := c_str_of_not_mem n hn
  have cm := c_str_of_not_mem m hm
  constructor
  · intro h0 habs hreg _
    have e1 : (self.calls drv cs).getUniform n = -1 := by
      unfold Shader.getUniform
      rw [cn, calls_uniforms_absent drv n cs self habs, h0]
    have e2 : (self.calls drv cs).getUniform m = drv.glGetUniformLocation self.pid m := by
      unfold Shader.getUniform
      have := calls_uniforms_registered drv m cs self hreg
      rw [cm] at this ⊢
      rw [this]
    refine ⟨e1, e2, ?_⟩
    rw [e1, e2]
    exact ⟨fun h e => h e.symm, fun h e => h e.symm⟩
  · intro h0 habs hreg _
    have e1 : (self.calls drv cs).getAttribute n = -1 := by
      unfold Shader.getAttribute
      rw [cn, calls_attributes_absent drv n cs self habs, h0]
    have e2 : (self.calls drv cs).getAttribute m = drv.glGetAttribLocation self.pid m := by
      unfold Shader.getAttribute
      have := calls_attributes_registered drv m cs self hreg
      rw [cm] at this ⊢
      rw [this]
    refine ⟨e1, e2, ?_⟩
    rw [e1, e2]
    exact ⟨fun h e => h e.symm, fun h e => h e.symm⟩

/-- The amended C3 at the sample driver: `n` is not found, `a` is registered with the
negative location -1, and both lookups return -1. -/
theorem not_found_vs_unbound_witness :
    NUL ∉ "n".toList ∧ NUL ∉ "a".toList ∧ mapFind sampleShader.uniforms "n".toList = none ∧
    sampleDriver.glGetUniformLocation sampleShader.pid "a".toList < 0 ∧
    (sampleShader.calls sampleDriver [.addUniform "a".toList]).getUniform "n".toList = -1 ∧
    (sampleShader.calls sampleDriver [.addUniform "a".toList]).getUniform "a".toList = -1 :=
  ⟨by decide, by decide, by decide, by decide,
    ((not_found_vs_unbound sampleDriver sampleShader [.addUniform "a".toList] "n".toList
      "a".toList (by decide) (by decide)).1 (by decide) (by decide) (by decide) (by decide)).1,
    ((not_found_vs_unbound sampleDriver sampleShader [.addUniform "a".toList] "n".toList
      "a".toList (by decide) (by decide)).1 (by decide) (by decide) (by decide)
      (by decide)).2.1⟩

/-- C4: with the location query of the driver a fixed function of program and name,
after every finite sequence of `addUniform` and `addAttribute` calls, a name `n`
registered by `addUniform` (resp. `addAttribute`) anywhere in the sequence is looked
up by `getUniform` (resp. `getAttribute`) to exactly the location the driver reports
for it, negative or not; and a call that registers another name, or the same name in
the other table, leaves the entry of `n` and the value looked up for it unchanged.
Names are C strings: they contain no terminator. -/
theorem lookup_round_trip (drv : Driver) (self : Shader) (cs : List Call) (n : List Char)
    (hn : NUL ∉ n) :
    (Call.addUniform n ∈ cs →
      (self.calls drv cs).getUniform n = drv.glGetUniformLocation self.pid n) ∧
    (Call.addAttribute n ∈ cs →
      (self.calls drv cs).getAttribute n = drv.glGetAttribLocation self.pid n) ∧
    (∀ c : Call, c ≠ Call.addUniform n →
      mapFind (self.call drv c).uniforms n = mapFind self.uniforms n ∧
      (self.call drv c).getUniform n = self.getUniform n) ∧
    (∀ c : Call, c ≠ Call.addAttribute n →
      mapFind (self.call drv c).attributes n = mapFind self.attributes n ∧
      (self.call drv c).getAttribute n = self.getAttribute n) := by
  have cn := c_str_of_not_mem n hn
  refine ⟨?_, ?_, ?_, ?_⟩
  · intro h
    have := calls_uniforms_registered drv n cs self h
    unfold Shader.getUniform
    rw [cn] at this ⊢
    rw [this]
  · intro h
    have := calls_attributes_registered drv n cs self h
    unfold Shader.getAttribute
    rw [cn] at this ⊢
    rw [this]
  · intro c hc
    have := call_uniforms_other drv self c n hc
    refine ⟨this, ?_⟩
    unfold Shader.getUniform
    rw [cn, this]
  · intro c hc
    have := call_attributes_other drv self c n hc
    refine ⟨this, ?_⟩
    unfold Shader.getAttribute
    rw [cn, this]

/-- C4 at the sample driver: `a` is registered first, with the negative location -1,
and found again after an attribute of the same name and another uniform were
registered. -/
theorem lookup_round_trip_witness :
    NUL ∉ "a".toList ∧
    Call.addUniform "a".toList
      ∈ [Call.addUniform "a".toList, Call.addAttribute "a".toList, Call.addUniform "b".toList] ∧
    (sampleShader.calls sampleDriver
      [.addUniform "a".toList, .addAttribute "a".toList, .addUniform "b".toList]).getUniform
        "a".toList = sampleDriver.glGetUniformLocation sampleShader.pid "a".toList :=
  ⟨by decide, by decide,
    (lookup_round_trip sampleDriver sampleShader
      [.addUniform "a".toList, .addAttribute "a".toList, .addUniform "b".toList] "a".toList
      (by decide)).1 (by decide)⟩

/-- C5, evaluated where the code departs from it. In the source text
`uniform\nuniform,x y` the first token of the second segment is `uniform,x`, which is
neither `uniform` nor `layout`; the bare `uniform` segment before it makes the scanner
overwrite the comma, the second segment then starts with the token `uniform`, and
`addUniform` is called for it with `y`. -/
theorem other_segment_after_bare_keyword :
    scanText (some "uniform\nuniform,x y".toList)
      = .ok [[.addUniform "uniform".toList, .addUniform "y".toList],
             [.addUniform "y".toList]] := by
  decide

/-- C6: for every construction and every stage whose file name is empty, no event of
the constructor (file read, compile, attach, introspection) belongs to that stage.
With a fragment name only, the events are taken, in order, from: read `res+fName`,
compile, attach, link, introspect the fragment stage, read `res+fName`; and when the
object is constructed with its fragment stage created, they are exactly these. -/
theorem empty_stage_is_skipped (drv : Driver) (fs : List Char → Option (List Char))
    (res vName fName gName : List Char) :
    (∀ stage, stageName vName fName gName stage = [] →
      ∀ e ∈ (Shader.Shader drv fs res vName fName gName).trace, e.stage ≠ some stage) ∧
    (vName = [] → gName = [] →
      List.Sublist (Shader.Shader drv fs res vName fName gName).trace
        [.textFileRead .fragment (res ++ fName), .glCompileShader .fragment,
          .glAttachShader .fragment, .glLinkProgram, .findAttributesAndUniforms .fragment,
          .textFileRead .fragment (res ++ fName)] ∧
      (∀ s, (Shader.Shader drv fs res vName fName gName).outcome = .done s →
        s.fShaderId ≠ 0 →
        (Shader.Shader drv fs res vName fName gName).trace
          = [.textFileRead .fragment (res ++ fName), .glCompileShader .fragment,
              .glAttachShader .fragment, .glLinkProgram, .findAttributesAndUniforms .fragment,
              .textFileRead .fragment (res ++ fName)])) := by
  constructor
  · intro stage hs e he
    exact (constructor_skips_empty drv fs res vName fName gName).1 e he stage hs
  · intro hv hg
    subst hv
    subst hg
    rcases constructor_fragment_only drv fs res fName with h | ⟨h, h0⟩
    · exact ⟨by rw [h], fun _ _ _ => h⟩
    · refine ⟨?_, fun s hs hne => absurd (h0 s hs) hne⟩
      rcases h with h | h | h | h | h <;> rw [h]
      · exact .cons _ (.cons _ (.cons _ (.cons₂ _ (.cons _ (.cons _ .slnil)))))
      · exact .cons₂ _ (.cons _ (.cons _ (.cons₂ _ (.cons _ (.cons _ .slnil)))))
      · exact .cons₂ _ (.cons₂ _ (.cons _ (.cons _ (.cons _ (.cons _ .slnil)))))
      · exact .cons₂ _ (.cons₂ _ (.cons _ (.cons₂ _ (.cons _ (.cons _ .slnil)))))
      · exact .cons₂ _ (.cons₂ _ (.cons₂ _ (.cons₂ _ (.cons _ (.cons _ .slnil)))))

/-- C6 at the sample collaborators: with the fragment name `f.glsl` only, no event
belongs to the vertex stage. -/
theorem empty_stage_is_skipped_witness :
    stageName [] "f.glsl".toList [] .vertex = [] ∧
    ∀ e ∈ (Shader.Shader sampleDriver sampleFiles "res/".toList [] "f.glsl".toList []).trace,
      e.stage ≠ some .vertex :=
  ⟨rfl, (empty_stage_is_skipped sampleDriver sampleFiles "res/".toList [] "f.glsl".toList
    []).1 .vertex rfl⟩

/-- C7: with process termination as the outcome `exit`, construction fails if and
only if a stage with a non-empty name and a readable source file fails to compile, or
the link fails. For a stage whose source file cannot be read, `compileShader` reads
and returns 0, and the stage is neither attached nor introspected. -/
theorem construction_fails_iff (drv : Driver) (fs : List Char → Option (List Char))
    (res vName fName gName : List Char) :
    ((Shader.Shader drv fs res vName fName gName).outcome = .exit ↔
      (compileFails drv fs res .vertex vName ∨ compileFails drv fs res .fragment fName ∨
        compileFails drv fs res .geometry gName ∨ linkFails drv fs res vName fName gName)) ∧
    (∀ stage, fs (res ++ stageName vName fName gName stage) = none →
      compileShader drv fs stage res (stageName vName fName gName stage)
        = ⟨[.textFileRead stage (res ++ stageName vName fName gName stage)], .done 0⟩ ∧
      Event.glAttachShader stage ∉ (Shader.Shader drv fs res vName fName gName).trace ∧
      Event.findAttributesAndUniforms stage
        ∉ (Shader.Shader drv fs res vName fName gName).trace) := by
  refine ⟨constructor_exit_iff drv fs res vName fName gName, ?_⟩
  intro stage hf
  have h := (constructor_skips_unreadable drv fs res vName fName gName stage hf).1
  exact ⟨compileShader_unreadable drv fs stage res _ hf, fun hmem => (h _ hmem).1 rfl,
    fun hmem => (h _ hmem).2 rfl⟩

/-- C7 at the sample collaborators: the vertex file `res/v.glsl` cannot be read, and
the vertex stage is not attached. -/
theorem construction_fails_iff_witness :
    sampleFiles ("res/".toList ++ stageName "v.glsl".toList "f.glsl".toList [] .vertex) = none ∧
    Event.glAttachShader .vertex
      ∉ (Shader.Shader sampleDriver sampleFiles "res/".toList "v.glsl".toList "f.glsl".toList
          []).trace :=
  ⟨by decide, ((construction_fails_iff sampleDriver sampleFiles "res/".toList "v.glsl".toList
    "f.glsl".toList []).2 .vertex (by decide)).2.1⟩

/-- C8, evaluated where the code departs from it. A space or a tab after a name moves
`lastDelimiter` behind the name (line 108), so the text registered is empty: the
segment `uniform float a , b ` registers two empty names, not `a` and `b`, and
`uniform float a ;` registers the empty name. The same line does drop the spaces and
tabs before a name (`uniform float  a,\tb;` registers `a` and `b`), and the `layout`
branch of the same function yields the bare name when a space follows it
(`layout(location = 0) in vec3 p ;` registers `p`). -/
theorem trailing_whitespace_not_trimmed :
    scanText (some "uniform float a , b ".toList) = .ok [[.addUniform [], .addUniform []]] ∧
    scanText (some "uniform float a , b ".toList)
      ≠ .ok [[.addUniform "a".toList, .addUniform "b".toList]] ∧
    scanText (some "uniform float a ;".toList) = .ok [[.addUniform []]] ∧
    scanText (some "uniform float  a,\tb;".toList)
      = .ok [[.addUniform "a".toList, .addUniform "b".toList]] ∧
    scanText (some "layout(location = 0) in vec3 p ;".toList)
      = .ok [[.addAttribute "p".toList]] := by
  decide

/-- C9, evaluated where the code departs from it. A tab is not among the delimiters
of the first token nor of the attribute tokens: the tab indented segment
`\tuniform float x` registers nothing, and `layout(location = 0) in vec3\tposition`
registers the attribute `vec3\tposition`, while a tab before a uniform name is a
delimiter (`uniform float\tx` registers `x`). -/
theorem tab_is_not_a_token_delimiter :
    scanText (some "\tuniform float x;".toList) = .ok [[]] ∧
    scanText (some "layout(location = 0) in vec3\tposition;".toList)
      = .ok [[.addAttribute "vec3\tposition".toList]] ∧
    scanText (some "uniform float\tx;".toList) = .ok [[.addUniform "x".toList]] := by
  decide

/-- C10, evaluated where the code departs from it. For a segment that is the bare
keyword `uniform` the declaration is read behind the terminator of the segment: in
`uniform\nfloat x;` the name `x` of the following segment is registered, and for a
source text that ends in `uniform` the read is outside the buffer. -/
theorem bare_keyword_reads_past_segment :
    scanText (some "uniform\nfloat x;".toList) = .ok [[.addUniform "x".toList], []] ∧
    scanText (some "void main()\nuniform".toList) = .error .outOfBounds ∧
    scanText (some "uniform".toList) = .error .outOfBounds := by
  decide

end Shaders
